import Mathlib

/-!
Verification of the `json_parser` repository (`jason_fixer.py`).

The Python source is shallowly embedded: text is `List Char`, Python `str`
values are `List Char`, machine integers are `Int`/`Nat`.  Python `float`
values are modelled by their decimal components (`JNum.dec`): the claims
under verification never depend on binary floating-point rounding, only on
which literal was parsed and how it is rendered, so a float is kept as
(sign, integer part, fraction digits, exponent).  Where CPython's `repr`
of a float re-normalises the magnitude (e.g. `1e5` ↦ `100000.0`) the model
renders the parsed components directly; both renderings are syntactically
valid JSON numbers, which is all the claims below consume.  Character
classification (`str.isspace`, `str.isalpha`, `str.isdigit`, `int()`,
`float()`) is modelled over the ASCII range plus the common Unicode space
characters; all concrete inputs appearing in theorems are ASCII.
-/

namespace JasonFixer

/-- Python `str.isspace` for one character (ASCII range plus the Unicode
space characters relevant to `str.strip`). -/
def pySpace (c : Char) : Bool :=
  c.toNat = 32 ∨ (9 ≤ c.toNat ∧ c.toNat ≤ 13) ∨ (28 ≤ c.toNat ∧ c.toNat ≤ 31) ∨
  c.toNat = 0x85 ∨ c.toNat = 0xa0 ∨ c.toNat = 0x1680 ∨
  (0x2000 ≤ c.toNat ∧ c.toNat ≤ 0x200a) ∨ c.toNat = 0x2028 ∨ c.toNat = 0x2029 ∨
  c.toNat = 0x202f ∨ c.toNat = 0x205f ∨ c.toNat = 0x3000

/-- Python `str.isalpha` for one character, modelled on the ASCII letters. -/
def pyAlpha (c : Char) : Bool := c.isAlpha

/-- Python `str.isdigit` for one character, modelled on the ASCII digits. -/
def pyDigit (c : Char) : Bool := c.isDigit

/-- Python `str.strip()` : drop leading and trailing whitespace. -/
def pyStrip (cs : List Char) : List Char :=
  ((cs.dropWhile pySpace).reverse.dropWhile pySpace).reverse

/-- Python `str.strip(chars)` with an explicit character set. -/
def pyStripSet (set : List Char) (cs : List Char) : List Char :=
  ((cs.dropWhile (set.contains ·)).reverse.dropWhile (set.contains ·)).reverse

/-- `text.count(c)` : number of occurrences of a character. -/
def countChar (c : Char) (cs : List Char) : Nat :=
  (cs.filter (· = c)).length

/-- Python `str.find(c)` : index of the first occurrence, `-1` if absent. -/
def pyFind (c : Char) (cs : List Char) : Int :=
  match cs.findIdx? (· = c) with
  | some i => (i : Int)
  | none => -1

/-- Python `str.rfind(c)` : index of the last occurrence, `-1` if absent. -/
def pyRfind (c : Char) (cs : List Char) : Int :=
  match cs.reverse.findIdx? (· = c) with
  | some i => ((cs.length - 1 - i : Nat) : Int)
  | none => -1

/-- A Python slice `s[a:b]` with non-negative bounds. -/
def pySlice (a b : Nat) (cs : List Char) : List Char :=
  (cs.take b).drop a

/-- `JsonFixer.STRING_DELIMITERS`.  The source line
`STRING_DELIMITERS = ['"', "'", """, """]` contains only ASCII quotes, so
the third element opens a triple-quoted string: the list Python builds is
`['"', "'", ', ']` — two quote characters and the two-character string
`", "`.  A membership test `char in STRING_DELIMITERS` on a single
character can therefore only match `'"'` or `'\''`. -/
def stringDelims : List (List Char) := [['"'], ['\''], [',', ' ']]

/-- `char in STRING_DELIMITERS` for a single character. -/
def isDelim (c : Char) : Bool := stringDelims.contains [c]

/-- Decimal digit character for a digit value. -/
def digitChar (n : Nat) : Char := Char.ofNat (48 + n)

/-- Digit value of a decimal digit character. -/
def digitVal (c : Char) : Nat := c.toNat - 48

/-- Fuel-driven core of decimal rendering of a natural number
(structural in the fuel so that it reduces in the kernel). -/
def natDigitsGo : Nat → Nat → List Char → List Char
  | 0, _, acc => acc
  | f + 1, n, acc =>
    if n < 10 then digitChar n :: acc
    else natDigitsGo f (n / 10) (digitChar (n % 10) :: acc)

/-- Decimal digits of a natural number (`str(n)` for `n ≥ 0`). -/
def natDigits (n : Nat) : List Char := natDigitsGo (n + 1) n []

/-- Python `str(i)` for an `int`. -/
def intRender (n : Int) : List Char :=
  if n < 0 then '-' :: natDigits n.natAbs else natDigits n.natAbs

/-- Numeric values as the Python code can observe them: an `int`, a finite
`float` kept as its parsed decimal components, an infinity, or a NaN. -/
inductive JNum where
  | int (n : Int)
  | dec (neg : Bool) (ip : Nat) (frac : List Nat) (ex : Option Int)
  | inf (neg : Bool)
  | nan
deriving Repr, DecidableEq

/-- Value of a list of decimal digits. -/
def digitsVal (ds : List Nat) : Nat := ds.foldl (fun a d => a * 10 + d) 0

/-- Fuel-driven splitter for a leading digit run with Python's underscore
rule `D(_?D)*` (no leading, trailing or doubled underscore); returns the
digit values and the unconsumed remainder. -/
def uSplitGo : Nat → List Char → (List Nat × List Char)
  | 0, l => ([], l)
  | _ + 1, [] => ([], [])
  | f + 1, c :: rest =>
    if c.isDigit then
      match rest with
      | '_' :: rest' =>
        (match rest' with
         | d :: _ =>
           if d.isDigit then
             let (ds, r) := uSplitGo f rest'
             (digitVal c :: ds, r)
           else ([digitVal c], '_' :: rest')
         | [] => ([digitVal c], ['_']))
      | _ =>
        let (ds, r) := uSplitGo f rest
        (digitVal c :: ds, r)
    else ([], c :: rest)

/-- Split a leading underscore-digit run off a string. -/
def uDigitsSplit (cs : List Char) : (List Nat × List Char) :=
  uSplitGo cs.length cs

/-- A complete digit run with underscores: the whole string must be one
non-empty run (`none` otherwise). -/
def uDigits (cs : List Char) : Option (List Nat) :=
  match uDigitsSplit cs with
  | (ds, []) => if ds.isEmpty then none else some ds
  | _ => none

/-- Python `int(s)` on a string: strip whitespace, optional sign, digit
run with underscores; `none` models `ValueError`. -/
def pyInt (cs : List Char) : Option Int :=
  match pyStrip cs with
  | '-' :: rest => (uDigits rest).map (fun ds => -(digitsVal ds : Int))
  | '+' :: rest => (uDigits rest).map (fun ds => (digitsVal ds : Int))
  | rest => (uDigits rest).map (fun ds => (digitsVal ds : Int))

/-- Parse an optional exponent suffix `([eE][+-]?run)?`; the string must
end after it.  Returns `some none` for an empty suffix. -/
def pyFloatExp : List Char → Option (Option Int)
  | [] => some none
  | e :: rest =>
    if e = 'e' ∨ e = 'E' then
      let (eneg, body) :=
        match rest with
        | '-' :: r => (true, r)
        | '+' :: r => (false, r)
        | r => (false, r)
      match uDigitsSplit body with
      | (ds, []) =>
        if ds.isEmpty then none
        else some (some (if eneg then -(digitsVal ds : Int) else (digitsVal ds : Int)))
      | _ => none
    else none

/-- Python `float(s)` on a string: strip whitespace, optional sign, then
either `inf`/`infinity`/`nan` (case-insensitive) or
`digits [. digits] [exponent]` with at least one mantissa digit.
`none` models `ValueError`. -/
def pyFloat (cs : List Char) : Option JNum :=
  let s := pyStrip cs
  let (neg, body) :=
    match s with
    | '-' :: r => (true, r)
    | '+' :: r => (false, r)
    | r => (false, r)
  let lower := body.map Char.toLower
  if lower = ['i', 'n', 'f'] ∨ lower = ['i', 'n', 'f', 'i', 'n', 'i', 't', 'y'] then
    some (JNum.inf neg)
  else if lower = ['n', 'a', 'n'] then
    some JNum.nan
  else
    let (ip, r1) := uDigitsSplit body
    match r1 with
    | '.' :: r2 =>
      let (fr, r3) := uDigitsSplit r2
      if ip.isEmpty ∧ fr.isEmpty then none
      else
        match pyFloatExp r3 with
        | some ex => some (JNum.dec neg (digitsVal ip) fr ex)
        | none => none
    | _ =>
      if ip.isEmpty then none
      else
        match pyFloatExp r1 with
        | some ex => some (JNum.dec neg (digitsVal ip) [] ex)
        | none => none

/-- Render a numeric value as Python's `repr`/`json.dumps` would, up to
magnitude re-normalisation of floats (see the module comment): the parsed
decimal components are printed back directly. -/
def renderNum : JNum → List Char
  | JNum.int n => intRender n
  | JNum.dec neg ip frac ex =>
    (if neg then ['-'] else []) ++ natDigits ip ++
    (match frac, ex with
     | [], none => ['.', '0']
     | [], some _ => []
     | fs, _ => '.' :: fs.map (fun d => digitChar (d % 10))) ++
    (match ex with
     | none => []
     | some e => 'e' :: (if e < 0 then '-' else '+') :: natDigits e.natAbs)
  | JNum.inf neg => if neg then
      ['-', 'I', 'n', 'f', 'i', 'n', 'i', 't', 'y']
    else ['I', 'n', 'f', 'i', 'n', 'i', 't', 'y']
  | JNum.nan => ['N', 'a', 'N']

/-- Rational value of a finite numeric value (`none` for `inf`/`nan`). -/
def numQ : JNum → Option ℚ
  | JNum.int n => some (n : ℚ)
  | JNum.dec neg ip frac ex =>
    let base : ℚ := (ip : ℚ) + (digitsVal frac : ℚ) / ((10 : ℚ) ^ frac.length)
    let scaled : ℚ :=
      match ex with
      | none => base
      | some e => if 0 ≤ e then base * (10 : ℚ) ^ e.toNat else base / ((10 : ℚ) ^ (-e).toNat)
    some (if neg then -scaled else scaled)
  | _ => none

/-- Python `==` on two numeric values (`nan` is not equal to itself,
infinities compare by sign, finite values by numeric value). -/
def numEq (a b : JNum) : Bool :=
  match a, b with
  | JNum.inf n₁, JNum.inf n₂ => n₁ = n₂
  | JNum.nan, _ => false
  | _, JNum.nan => false
  | JNum.inf _, _ => false
  | _, JNum.inf _ => false
  | x, y =>
    match numQ x, numQ y with
    | some q₁, some q₂ => q₁ = q₂
    | _, _ => false

/-- Python truthiness of a numeric value: `0` and `0.0` are falsy. -/
def numFalsy : JNum → Bool
  | JNum.int n => n = 0
  | JNum.dec _ ip frac _ => ip = 0 ∧ frac.all (· = 0)
  | _ => false

/-- Dictionary keys the parsers can produce: strings, or the numbers that
slip through `_cleanup_string`'s falsiness guard. -/
inductive JKey where
  | str (s : List Char)
  | num (n : JNum)
deriving Repr, DecidableEq

/-- Python `dict`-key equality for the reachable keys: strings compare by
content, numbers by numeric value, and a string never equals a number. -/
def keyEq (a b : JKey) : Bool :=
  match a, b with
  | JKey.str s, JKey.str t => s = t
  | JKey.num x, JKey.num y => numEq x y
  | _, _ => false

mutual

/-- The values the Python code manipulates: `None`, `bool`, numbers,
`str`, `list` and `dict` (association list in insertion order). -/
inductive Val where
  | null
  | bool (b : Bool)
  | num (n : JNum)
  | str (s : List Char)
  | arr (elems : List Val)
  | obj (fields : List (JKey × Val))
deriving Repr

end

/-- `d[k] = v` on an insertion-ordered dictionary: overwrite in place if
an equal key exists, else append. -/
def upsert (fields : List (JKey × Val)) (k : JKey) (v : Val) : List (JKey × Val) :=
  match fields with
  | [] => [(k, v)]
  | (k', v') :: rest =>
    if keyEq k' k then (k', v) :: rest
    else (k', v') :: upsert rest k v

/-- `d.get(k)` on an insertion-ordered dictionary. -/
def alookup (fields : List (JKey × Val)) (k : JKey) : Option Val :=
  match fields with
  | [] => none
  | (k', v') :: rest => if keyEq k' k then some v' else alookup rest k

/-- Hexadecimal digit character (lower case, as `json.dumps` emits). -/
def hexChar (n : Nat) : Char :=
  if n < 10 then Char.ofNat (48 + n) else Char.ofNat (87 + n)

/-- Four-digit lower-case hex rendering of `n < 0x10000`. -/
def hex4 (n : Nat) : List Char :=
  [hexChar (n / 4096 % 16), hexChar (n / 256 % 16), hexChar (n / 16 % 16), hexChar (n % 16)]

/-- `json.dumps` escaping of one character with the default
`ensure_ascii=True`: ASCII printables pass through, `"`/`\` and the named
control characters get two-character escapes, everything else becomes
`\uXXXX` (a surrogate pair above `U+FFFF`). -/
def dumpChar (c : Char) : List Char :=
  if c = '"' then ['\\', '"']
  else if c = '\\' then ['\\', '\\']
  else if c = '\x08' then ['\\', 'b']
  else if c = '\x0c' then ['\\', 'f']
  else if c = '\n' then ['\\', 'n']
  else if c = '\r' then ['\\', 'r']
  else if c = '\t' then ['\\', 't']
  else if 0x20 ≤ c.toNat ∧ c.toNat ≤ 0x7e then [c]
  else if c.toNat < 0x10000 then '\\' :: 'u' :: hex4 c.toNat
  else
    '\\' :: 'u' :: hex4 (0xd800 + (c.toNat - 0x10000) / 0x400) ++
      ('\\' :: 'u' :: hex4 (0xdc00 + (c.toNat - 0x10000) % 0x400))

/-- `json.dumps` rendering of a string. -/
def dumpString (s : List Char) : List Char :=
  '"' :: s.flatMap dumpChar ++ ['"']

/-- `json.dumps` rendering of a dictionary key (non-string keys are
coerced the way the encoder does). -/
def dumpKey : JKey → List Char
  | JKey.str s => dumpString s
  | JKey.num n => dumpString (renderNum n)

/-- Interleave a separator between rendered items. -/
def joinComma : List (List Char) → List Char
  | [] => []
  | [x] => x
  | x :: rest => x ++ ',' :: joinComma rest

mutual

/-- `json.dumps(v, separators=(',', ':'))`: compact canonical
serialization. -/
def dumps : Val → List Char
  | Val.null => ['n', 'u', 'l', 'l']
  | Val.bool true => ['t', 'r', 'u', 'e']
  | Val.bool false => ['f', 'a', 'l', 's', 'e']
  | Val.num n => renderNum n
  | Val.str s => dumpString s
  | Val.arr elems => '[' :: dumpsList elems ++ [']']
  | Val.obj fields => '{' :: dumpsFields fields ++ ['}']

/-- Comma-joined rendering of array elements. -/
def dumpsList : List Val → List Char
  | [] => []
  | [v] => dumps v
  | v :: rest => dumps v ++ ',' :: dumpsList rest

/-- Comma-joined rendering of object members. -/
def dumpsFields : List (JKey × Val) → List Char
  | [] => []
  | [(k, v)] => dumpKey k ++ ':' :: dumps v
  | (k, v) :: rest => dumpKey k ++ ':' :: dumps v ++ ',' :: dumpsFields rest

end

/-- Python `str(x)` for the scalar values that can reach the
`str(parsed)` branch of `_process_chunk`. -/
def pyStr : Val → List Char
  | Val.null => ['N', 'o', 'n', 'e']
  | Val.bool true => ['T', 'r', 'u', 'e']
  | Val.bool false => ['F', 'a', 'l', 's', 'e']
  | Val.num n => renderNum n
  | Val.str s => s
  | v => dumps v

/-! ### Strict parser: model of `json.loads`

Ported from CPython's reference decoder (`json/decoder.py`,
`json/scanner.py`).  The scanners walk a suffix of the input together
with the absolute position of its head, so everything is structural and
reduces in the kernel.  Error values carry the `JSONDecodeError.pos`
the Python decoder reports. -/

/-- JSON whitespace (`' \t\n\r'`). -/
def jsonWs (c : Char) : Bool := c = ' ' ∨ c = '\t' ∨ c = '\n' ∨ c = '\r'

/-- Skip JSON whitespace, keeping position and suffix in lockstep. -/
def skipWsS : Nat → List Char → Nat × List Char
  | pos, [] => (pos, [])
  | pos, c :: rest => if jsonWs c then skipWsS (pos + 1) rest else (pos, c :: rest)

/-- Hexadecimal digit value. -/
def hexv (c : Char) : Option Nat :=
  if '0' ≤ c ∧ c ≤ '9' then some (c.toNat - 48)
  else if 'a' ≤ c ∧ c ≤ 'f' then some (c.toNat - 87)
  else if 'A' ≤ c ∧ c ≤ 'F' then some (c.toNat - 70)
  else none

/-- `_decode_uXXXX`: value of four hex digits. -/
def hex4v (a b c d : Char) : Option Nat :=
  match hexv a, hexv b, hexv c, hexv d with
  | some x, some y, some z, some w => some (4096 * x + 256 * y + 16 * z + w)
  | _, _, _, _ => none

/-- The `BACKSLASH` escape table of `py_scanstring`. -/
def jsonEscTable (c : Char) : Option Char :=
  if c = '"' then some '"'
  else if c = '\\' then some '\\'
  else if c = '/' then some '/'
  else if c = 'b' then some '\x08'
  else if c = 'f' then some '\x0c'
  else if c = 'n' then some '\n'
  else if c = 'r' then some '\r'
  else if c = 't' then some '\t'
  else none

/-- Scalar for a code point; a lone surrogate (which Python would keep in
its `str`) is unrepresentable in `Char` and maps to `U+0000`. -/
def chrOf (n : Nat) : Char := Char.ofNat n

/-- Core of `py_scanstring`: `begin` is the position of the opening
quote, `pos`/`rem` the cursor.  Fuel is structural; with fuel ≥ remaining
length it never runs out (each step consumes a character), and exhaustion
falls back to the unterminated-string error. -/
def scanStrGo (begin : Nat) : Nat → Nat → List Char → List Char →
    Except Nat (List Char × Nat × List Char)
  | 0, _, _, _ => .error begin
  | _ + 1, _, _, [] => .error begin
  | f + 1, pos, acc, c :: rest =>
    if c = '"' then .ok (acc, pos + 1, rest)
    else if c = '\\' then
      match rest with
      | [] => .error begin
      | e :: rest2 =>
        if e = 'u' then
          match rest2 with
          | h1 :: h2 :: h3 :: h4 :: rest6 =>
            (match hex4v h1 h2 h3 h4 with
             | none => .error (pos + 2)
             | some u =>
               if 0xd800 ≤ u ∧ u ≤ 0xdbff then
                 match rest6 with
                 | '\\' :: 'u' :: g1 :: g2 :: g3 :: g4 :: rest12 =>
                   (match hex4v g1 g2 g3 g4 with
                    | none => .error (pos + 8)
                    | some u2 =>
                      if 0xdc00 ≤ u2 ∧ u2 ≤ 0xdfff then
                        scanStrGo begin f (pos + 12)
                          (acc ++ [chrOf (0x10000 + ((u - 0xd800) * 1024 + (u2 - 0xdc00)))])
                          rest12
                      else scanStrGo begin f (pos + 6) (acc ++ [chrOf u]) rest6)
                 | _ => scanStrGo begin f (pos + 6) (acc ++ [chrOf u]) rest6
               else scanStrGo begin f (pos + 6) (acc ++ [chrOf u]) rest6)
          | _ => .error (pos + 2)
        else
          match jsonEscTable e with
          | some ch => scanStrGo begin f (pos + 2) (acc ++ [ch]) rest2
          | none => .error (pos + 1)
    else if c.toNat < 0x20 then .error (pos + 1)
    else scanStrGo begin f (pos + 1) (acc ++ [c]) rest

/-- `py_scanstring(s, end)` with `pos`/`rem` just after the opening quote
at position `pos - 1`. -/
def scanStringS (pos : Nat) (rem : List Char) :
    Except Nat (List Char × Nat × List Char) :=
  scanStrGo (pos - 1) (rem.length + 1) pos [] rem

/-- Leading run of ASCII digits (values, new position, remainder). -/
def digitSpan : Nat → List Char → List Nat × Nat × List Char
  | pos, [] => ([], pos, [])
  | pos, c :: rest =>
    if c.isDigit then
      let (ds, p, r) := digitSpan (pos + 1) rest
      (digitVal c :: ds, p, r)
    else ([], pos, c :: rest)

/-- Integer-part group `-?(0|[1-9]\d*)` of `NUMBER_RE`. -/
def matchIntPart (pos : Nat) (rem : List Char) :
    Option (Bool × List Nat × Nat × List Char) :=
  let s : Bool × Nat × List Char :=
    match rem with
    | '-' :: r => (true, pos + 1, r)
    | r => (false, pos, r)
  match s.2.2 with
  | c :: rest =>
    if c = '0' then some (s.1, [0], s.2.1 + 1, rest)
    else if c.isDigit then
      let d := digitSpan (s.2.1 + 1) rest
      some (s.1, digitVal c :: d.1, d.2.1, d.2.2)
    else none
  | [] => none

/-- Fraction group `(\.\d+)?` of `NUMBER_RE`. -/
def matchFrac (pos : Nat) (rem : List Char) :
    Option (List Nat) × Nat × List Char :=
  match rem with
  | '.' :: r =>
    (match r with
     | d :: _ =>
       if d.isDigit then
         let ds := digitSpan (pos + 1) r
         (some ds.1, ds.2.1, ds.2.2)
       else (none, pos, rem)
     | [] => (none, pos, rem))
  | _ => (none, pos, rem)

/-- Exponent group `([eE][-+]?\d+)?` of `NUMBER_RE`. -/
def matchExp (pos : Nat) (rem : List Char) :
    Option Int × Nat × List Char :=
  match rem with
  | e :: r =>
    if e = 'e' ∨ e = 'E' then
      let s : Bool × Nat × List Char :=
        match r with
        | '-' :: r2 => (true, pos + 2, r2)
        | '+' :: r2 => (false, pos + 2, r2)
        | r2 => (false, pos + 1, r2)
      match s.2.2 with
      | d :: _ =>
        if d.isDigit then
          let ds := digitSpan s.2.1 s.2.2
          (some (if s.1 then -(digitsVal ds.1 : Int) else (digitsVal ds.1 : Int)),
            ds.2.1, ds.2.2)
        else (none, pos, rem)
      | [] => (none, pos, rem)
    else (none, pos, rem)
  | [] => (none, pos, rem)

/-- `NUMBER_RE` of the scanner:
`(-?(0|[1-9]\d*))(\.\d+)?([eE][-+]?\d+)?`, matched at the cursor; returns
the numeric value and the cursor after the match. -/
def matchNumber (pos : Nat) (rem : List Char) : Option (JNum × Nat × List Char) :=
  match matchIntPart pos rem with
  | none => none
  | some (neg, ip, pos1, rem1) =>
    let fr := matchFrac pos1 rem1
    let ex := matchExp fr.2.1 fr.2.2
    match fr.1, ex.1 with
    | none, none =>
      some (JNum.int (if neg then -(digitsVal ip : Int) else (digitsVal ip : Int)), pos1, rem1)
    | f, e => some (JNum.dec neg (digitsVal ip) (f.getD []) e, ex.2.1, ex.2.2)

/-- Result of a strict scan: out of fuel, a `JSONDecodeError` position,
or a value with the cursor after it. -/
inductive SRes where
  | fuelOut
  | err (pos : Nat)
  | ok (v : Val) (pos : Nat) (rem : List Char)
deriving Repr

mutual

/-- `_scan_once` of the scanner.  A single fuel argument bounds the total
number of mutual calls; every call edge decrements it by one, so the
whole block is structurally recursive (and hence kernel-reducible).
With the generous fuel `strictDecode` supplies it never runs out. -/
def scanValueF : Nat → Nat → List Char → SRes
  | 0, _, _ => .fuelOut
  | f + 1, pos, rem =>
    match rem with
    | [] => .err pos
    | c :: rest =>
      if c = '"' then
        match scanStringS (pos + 1) rest with
        | .error p => .err p
        | .ok (s, p, r) => .ok (Val.str s) p r
      else if c = '{' then scanObjF f (pos + 1) rest
      else if c = '[' then scanArrF f (pos + 1) rest
      else if rem.take 4 = ['n', 'u', 'l', 'l'] then .ok Val.null (pos + 4) (rem.drop 4)
      else if rem.take 4 = ['t', 'r', 'u', 'e'] then .ok (Val.bool true) (pos + 4) (rem.drop 4)
      else if rem.take 5 = ['f', 'a', 'l', 's', 'e'] then
        .ok (Val.bool false) (pos + 5) (rem.drop 5)
      else
        match matchNumber pos rem with
        | some (n, p, r) => .ok (Val.num n) p r
        | none =>
          if rem.take 3 = ['N', 'a', 'N'] then .ok (Val.num JNum.nan) (pos + 3) (rem.drop 3)
          else if rem.take 8 = ['I', 'n', 'f', 'i', 'n', 'i', 't', 'y'] then
            .ok (Val.num (JNum.inf false)) (pos + 8) (rem.drop 8)
          else if rem.take 9 = ['-', 'I', 'n', 'f', 'i', 'n', 'i', 't', 'y'] then
            .ok (Val.num (JNum.inf true)) (pos + 9) (rem.drop 9)
          else .err pos

termination_by structural fuel => fuel
/-- `JSONObject` up to the first key (cursor just after `{`). -/
def scanObjF : Nat → Nat → List Char → SRes
  | 0, _, _ => .fuelOut
  | f + 1, pos, rem =>
    let s1 :=
      match rem with
      | c :: _ => if c ≠ '"' ∧ jsonWs c then skipWsS pos rem else (pos, rem)
      | [] => (pos, rem)
    match s1.2 with
    | '}' :: r => .ok (Val.obj []) (s1.1 + 1) r
    | '"' :: r => objMembers f (s1.1 + 1) r []
    | _ => .err s1.1

termination_by structural fuel => fuel
/-- Member loop of `JSONObject`; cursor just after a key's opening
quote. -/
def objMembers : Nat → Nat → List Char → List (JKey × Val) → SRes
  | 0, _, _, _ => .fuelOut
  | f + 1, pos, rem, acc =>
    match scanStringS pos rem with
    | .error p => .err p
    | .ok (key, pos2, rem2) =>
      let s3 :=
        match rem2 with
        | ':' :: _ => (pos2, rem2)
        | _ => skipWsS pos2 rem2
      match s3.2 with
      | ':' :: rem4 =>
        let s5 := skipWsS (s3.1 + 1) rem4
        match scanValueF f s5.1 s5.2 with
        | .fuelOut => .fuelOut
        | .err p => .err p
        | .ok v pos6 rem6 =>
          let acc' := upsert acc (JKey.str key) v
          let s7 :=
            match rem6 with
            | c :: _ => if jsonWs c then skipWsS pos6 rem6 else (pos6, rem6)
            | [] => (pos6, rem6)
          match s7.2 with
          | '}' :: r => .ok (Val.obj acc') (s7.1 + 1) r
          | ',' :: r =>
            let s8 := skipWsS (s7.1 + 1) r
            (match s8.2 with
             | '"' :: r2 => objMembers f (s8.1 + 1) r2 acc'
             | _ => .err s8.1)
          | _ => .err s7.1
      | _ => .err s3.1

termination_by structural fuel => fuel
/-- `JSONArray` (cursor just after `[`). -/
def scanArrF : Nat → Nat → List Char → SRes
  | 0, _, _ => .fuelOut
  | f + 1, pos, rem =>
    let s1 := skipWsS pos rem
    match s1.2 with
    | ']' :: r => .ok (Val.arr []) (s1.1 + 1) r
    | _ => arrMembers f s1.1 s1.2 []

termination_by structural fuel => fuel
/-- Element loop of `JSONArray`. -/
def arrMembers : Nat → Nat → List Char → List Val → SRes
  | 0, _, _, _ => .fuelOut
  | f + 1, pos, rem, acc =>
    match scanValueF f pos rem with
    | .fuelOut => .fuelOut
    | .err p => .err p
    | .ok v pos2 rem2 =>
      let acc' := acc ++ [v]
      let s3 :=
        match rem2 with
        | c :: _ => if jsonWs c then skipWsS pos2 rem2 else (pos2, rem2)
        | [] => (pos2, rem2)
      match s3.2 with
      | ']' :: r => .ok (Val.arr acc') (s3.1 + 1) r
      | ',' :: r =>
        let s4 := skipWsS (s3.1 + 1) r
        arrMembers f s4.1 s4.2 acc'
      | _ => .err s3.1

termination_by structural fuel => fuel
end

/-- `json.loads`: decode one document, requiring only whitespace after
it.  The error value is the reported `JSONDecodeError.pos`.  The fuel
`4 * length + 8` dominates the total number of scanner calls, each of
which consumes input. -/
def strictDecode (cs : List Char) : Except Nat Val :=
  let s0 := skipWsS 0 cs
  match scanValueF (4 * cs.length + 8) s0.1 s0.2 with
  | .fuelOut => .error cs.length
  | .err p => .error p
  | .ok v pos1 rem1 =>
    let s2 := skipWsS pos1 rem1
    if s2.2.isEmpty then .ok v else .error s2.1

/-! ### Tolerant parser: model of `JsonFixer.parse` and friends

`parse`, `parse_object`, `parse_array`, `parse_string`, `parse_number`
are embedded with the cursor `(pos, rem)`: `rem` is the suffix of
`json_str` starting at `self.index = pos`.  The mutually recursive trio
takes one fuel argument, decremented on every call edge; every edge also
strictly decreases the measure `4 * rem.length + phase`, so the fuel
`4 * length + 8` supplied at top level is proven sufficient below.
`_track_error` observations are returned as `(char-string, position)`
pairs in call order. -/

/-- A tracked error observation: the string passed to `_track_error`
(usually one character, possibly an exception message) and the position
(`-1` for the internal-error sentinel). -/
abbrev ErrObs := List Char × Int

/-- Python exceptions the embedded code can raise. -/
inductive PyErr where
  | attrError (ty : List Char)
  | indexError
  | typeError
  | updateSeqError
  | valueError (msg : List Char)
deriving Repr, DecidableEq

/-- Scan loop of `parse_string`: returns the accumulated characters, the
`found_end` flag and the final cursor.  `quote` is `some q` in the quoted
mode. -/
def psGo (quote : Option Char) : List Char → Nat → List Char → Bool →
    (List Char × Bool × Nat × List Char)
  | [], pos, acc, _ => (acc, false, pos, [])
  | c :: rest, pos, acc, esc =>
    if esc then psGo quote rest (pos + 1) (acc ++ [c]) false
    else if c = '\\' then psGo quote rest (pos + 1) acc true
    else if quote = some c then (acc, true, pos + 1, rest)
    else if quote = none ∧ (c = ',' ∨ c = ':' ∨ c = ']' ∨ c = '}') then
      (acc, false, pos, c :: rest)
    else if quote = none ∧ pySpace c ∧ ¬(pyStrip acc).isEmpty then
      (acc, false, pos, c :: rest)
    else psGo quote rest (pos + 1) (acc ++ [c]) false

/-- `_cleanup_string(s, is_key=False)`. -/
def cleanupValue (s : List Char) : List Char :=
  if s.isEmpty then s else pyStripSet ['"', '\'', '\\'] (pyStrip s)

/-- `parse_string`: parse a quoted or bare string/number token at the
cursor, returning the value, the new cursor and any tracked
unmatched-quote error. -/
def parseStringR (pos : Nat) (rem : List Char) :
    Val × Nat × List Char × List ErrObs :=
  match rem with
  | [] => (Val.str [], pos, [], [])
  | c :: rest =>
    if isDelim c then
      let r := psGo (some c) rest (pos + 1) [] false
      let errs : List ErrObs := if r.2.1 then [] else [([c], (pos : Int))]
      (Val.str (cleanupValue (pyStrip r.1)), r.2.2.1, r.2.2.2, errs)
    else
      let r := psGo none (c :: rest) pos [] false
      let res := pyStrip r.1
      let v : Val :=
        if res.contains '.' then
          match pyFloat res with
          | some n => Val.num n
          | none => Val.str (cleanupValue res)
        else
          match pyInt res with
          | some n => Val.num (JNum.int n)
          | none => Val.str (cleanupValue res)
      (v, r.2.2.1, r.2.2.2, [])

/-- Scan loop of `parse_number` over the character set `0-9.-eE`. -/
def pnGo : List Char → Nat → List Char → (List Char × Nat × List Char)
  | [], pos, acc => (acc, pos, [])
  | c :: rest, pos, acc =>
    if c.isDigit ∨ c = '.' ∨ c = '-' ∨ c = 'e' ∨ c = 'E' then
      pnGo rest (pos + 1) (acc ++ [c])
    else (acc, pos, c :: rest)

/-- `parse_number`: greedy scan then `int`/`float` with fallback `0`. -/
def parseNumberR (pos : Nat) (rem : List Char) : Val × Nat × List Char :=
  let r := pnGo rem pos []
  let number := r.1
  let v : Val :=
    if ¬number.contains '.' ∧ ¬number.contains 'e' ∧ ¬number.contains 'E' then
      match pyInt number with
      | some n => Val.num (JNum.int n)
      | none => Val.num (JNum.int 0)
    else
      match pyFloat number with
      | some n => Val.num n
      | none => Val.num (JNum.int 0)
  (v, r.2.1, r.2.2)

/-- `_cleanup_string(key, is_key=True)` applied to a `parse_string`
result, as `parse_object` does for keys.  A non-empty string is stripped
and has all `:`/`;` removed; a falsy value (`''`, `0`, `0.0`) is returned
unchanged; any other non-string value hits `.strip()` and raises
`AttributeError`.  (`parse_string` only ever returns strings and numbers,
so the remaining constructors are dead; they are mapped to a dropped key,
which keeps the function total without affecting any reachable run.) -/
def cleanupKey : Val → Except PyErr (Option JKey)
  | Val.str s =>
    if s.isEmpty then .ok (some (JKey.str s))
    else .ok (some (JKey.str ((pyStrip s).filter (fun c => c ≠ ':' ∧ c ≠ ';'))))
  | Val.num n =>
    if numFalsy n then .ok (some (JKey.num n))
    else .error (PyErr.attrError (match n with
      | JNum.int _ => ['i', 'n', 't']
      | _ => ['f', 'l', 'o', 'a', 't']))
  | Val.bool true => .error (PyErr.attrError ['b', 'o', 'o', 'l'])
  | _ => .ok none

/-- Skip Python whitespace (the inner loops of `parse_array`). -/
def skipPy : List Char → Nat → Nat × List Char
  | [], pos => (pos, [])
  | c :: rest, pos => if pySpace c then skipPy rest (pos + 1) else (pos, c :: rest)

/-- Skip Python whitespace and commas (after an array element). -/
def skipPyComma : List Char → Nat → Nat × List Char
  | [], pos => (pos, [])
  | c :: rest, pos =>
    if pySpace c ∨ c = ',' then skipPyComma rest (pos + 1) else (pos, c :: rest)

/-- Result of a tolerant parse: out of fuel, a raised exception, or a
value with the final cursor and the tracked errors in call order. -/
inductive PRes where
  | fuelOut
  | fail (e : PyErr)
  | ok (v : Val) (pos : Nat) (rem : List Char) (errs : List ErrObs)
deriving Repr

mutual

/-- `JsonFixer.parse`: dispatch on the current character, skipping
whitespace and unrecognized characters. -/
def parseF : Nat → Nat → List Char → PRes
  | 0, _, _ => .fuelOut
  | f + 1, pos, rem =>
    match rem with
    | [] => .ok Val.null pos [] []
    | c :: rest =>
      if pySpace c then parseF f (pos + 1) rest
      else if c = '{' then objLoopF f (pos + 1) rest true none [] []
      else if c = '[' then arrLoopF f (pos + 1) rest [] []
      else if isDelim c ∨ pyAlpha c then
        let r := parseStringR pos rem
        .ok r.1 r.2.1 r.2.2.1 r.2.2.2
      else if c.isDigit ∨ c = '.' ∨ c = '-' then
        let r := parseNumberR pos rem
        .ok r.1 r.2.1 r.2.2 []
      else parseF f (pos + 1) rest

termination_by structural fuel => fuel
/-- `JsonFixer.parse_object` (cursor just after `{`): `ek` is
`expect_key`, `ck` is `current_key`, `acc` the object built so far. -/
def objLoopF : Nat → Nat → List Char → Bool → Option JKey →
    List (JKey × Val) → List ErrObs → PRes
  | 0, _, _, _, _, _, _ => .fuelOut
  | f + 1, pos, rem, ek, ck, acc, errs =>
    match rem with
    | [] => .ok (Val.obj acc) pos [] errs
    | c :: rest =>
      if pySpace c ∨ c = ',' then objLoopF f (pos + 1) rest ek ck acc errs
      else if c = '}' then .ok (Val.obj acc) (pos + 1) rest errs
      else if ek then
        let r := parseStringR pos rem
        match cleanupKey r.1 with
        | .error e => .fail e
        | .ok k => objLoopF f r.2.1 r.2.2.1 false k acc (errs ++ r.2.2.2)
      else if c = ':' then objLoopF f (pos + 1) rest ek ck acc errs
      else
        match parseF f pos rem with
        | .fuelOut => .fuelOut
        | .fail e => .fail e
        | .ok v pos2 rem2 errs2 =>
          let acc' :=
            match ck, v with
            | some _, Val.null => acc
            | some k, w => upsert acc k w
            | none, _ => acc
          objLoopF f pos2 rem2 true none acc' (errs ++ errs2)

termination_by structural fuel => fuel
/-- `JsonFixer.parse_array` (cursor just after `[`). -/
def arrLoopF : Nat → Nat → List Char → List Val → List ErrObs → PRes
  | 0, _, _, _, _ => .fuelOut
  | f + 1, pos, rem, acc, errs =>
    match rem with
    | [] => .ok (Val.arr acc) pos [] errs
    | _ :: _ =>
      let s1 := skipPy rem pos
      match s1.2 with
      | [] => .ok (Val.arr acc) (s1.1 + 1) [] errs
      | ']' :: r => .ok (Val.arr acc) (s1.1 + 1) r errs
      | _ =>
        match parseF f s1.1 s1.2 with
        | .fuelOut => .fuelOut
        | .fail e => .fail e
        | .ok v pos2 rem2 errs2 =>
          let acc' :=
            match v with
            | Val.null => acc
            | w => acc ++ [w]
          let s3 := skipPyComma rem2 pos2
          arrLoopF f s3.1 s3.2 acc' (errs ++ errs2)

termination_by structural fuel => fuel
end

/-- Fuel supplied to the tolerant parser at top level; proven sufficient
below. -/
def parseFuel (cs : List Char) : Nat := 4 * cs.length + 8

/-- `self._cached_parse(json_str)`'s underlying computation: run the
tolerant parser from index `0`. -/
def parseTop (cs : List Char) : PRes := parseF (parseFuel cs) 0 cs

/-! ### Structural validator: the scan loop of `_process_chunk` -/

/-- State of the structural scan: quote stack, bracket stack (head =
top), `key_mode`, and the errors tracked so far in call order. -/
structure ScanSt where
  qs : List (Char × Nat)
  bs : List (Char × Nat)
  km : Bool
  errs : List ErrObs
deriving Repr

/-- Initial scan state (`key_mode = True`). -/
def scanInit : ScanSt := ⟨[], [], true, []⟩

/-- One character of the scan loop in `_process_chunk`. -/
def scanStep (st : ScanSt) (i : Nat) (c : Char) : ScanSt :=
  if isDelim c then
    match st.qs with
    | [] => { st with qs := [(c, i)] }
    | (lq, lp) :: restQ =>
      if c = lq then { st with qs := restQ }
      else { st with errs := st.errs ++ [([c], (i : Int)), ([lq], (lp : Int))] }
  else if ¬st.qs.isEmpty then st
  else if c = '[' ∨ c = '{' then
    { st with bs := (c, i) :: st.bs, km := if c = '{' then true else st.km }
  else if c = ']' ∨ c = '}' then
    match st.bs with
    | [] => { st with errs := st.errs ++ [([c], (i : Int))] }
    | (oc, op) :: restB =>
      let expected := if oc = '[' then ']' else '}'
      if c = expected then { st with bs := restB }
      else { st with bs := restB, errs := st.errs ++ [([c], (i : Int)), ([oc], (op : Int))] }
  else if c = ':' then
    { st with errs := st.errs ++ (if st.km then [] else [([c], (i : Int))]), km := false }
  else if c = ',' then { st with km := true }
  else st

/-- Fold the scan over the characters starting at index `i`. -/
def scanGo : ScanSt → Nat → List Char → ScanSt
  | st, _, [] => st
  | st, i, c :: rest => scanGo (scanStep st i c) (i + 1) rest

/-- End-of-scan reporting: every still-open quote and bracket is dumped
(in push order, i.e. the reverse of the stack) at its position and at the
synthetic position `len`. -/
def scanFinish (st : ScanSt) (len : Nat) : List ErrObs :=
  st.errs
    ++ st.qs.reverse.flatMap (fun qp => [([qp.1], (qp.2 : Int)), ([qp.1], (len : Int))])
    ++ st.bs.reverse.flatMap (fun bp =>
        [([bp.1], (bp.2 : Int)), ([if bp.1 = '[' then ']' else '}'], (len : Int))])

/-- All `_track_error` observations of the structural scan of `cs`. -/
def runScanErrs (cs : List Char) : List ErrObs :=
  scanFinish (scanGo scanInit 0 cs) cs.length

/-! ### Repair pipeline -/

/-- `JsonResults`: original text, repaired text, and the `_track_error`
observations in call order (the `errors` dict is derived below). -/
structure JsonResultsM where
  original : List Char
  fixed : List Char
  errs : List ErrObs
deriving Repr

/-- One `add_error` call on the `errors` dict: append the position to the
character's list, inserting the character on first occurrence. -/
def addErrMap (m : List (List Char × List Int)) (k : List Char) (p : Int) :
    List (List Char × List Int) :=
  match m with
  | [] => [(k, [p])]
  | (k', ps) :: rest => if k' = k then (k', ps ++ [p]) :: rest else (k', ps) :: addErrMap rest k p

/-- The `errors` dict (`{char: [positions]}`) built from the
observations. -/
def buildErrMap (obs : List ErrObs) : List (List Char × List Int) :=
  obs.foldl (fun m o => addErrMap m o.1 o.2) []

/-- The `errors` dict of a result. -/
def resultErrors (r : JsonResultsM) : List (List Char × List Int) := buildErrMap r.errs

/-- Instance state of a `JsonFixer`: the `lru_cache` of `_cached_parse`,
keyed by the exact text.  (The cache's 1024-entry LRU bound is not
modelled; the claims below involve far fewer distinct keys.) -/
structure FixerSt where
  cache : List (List Char × Val)
deriving Repr

/-- A fresh `JsonFixer()`. -/
def emptyFixer : FixerSt := ⟨[]⟩

/-- Cache lookup by exact text. -/
def cacheLookup : List (List Char × Val) → List Char → Option Val
  | [], _ => none
  | (k, v) :: rest, cs => if k = cs then some v else cacheLookup rest cs

/-- `_cached_parse`: on a hit the memoized value is returned and the
parser does not run, so no parse-time `_track_error` calls happen (the
returned observation list is empty); on a miss the parser runs and a
successful result is cached (`lru_cache` does not cache raising calls). -/
def cachedParse (st : FixerSt) (cs : List Char) :
    (Except PyErr (Val × List ErrObs)) × FixerSt :=
  match cacheLookup st.cache cs with
  | some v => (.ok (v, []), st)
  | none =>
    match parseTop cs with
    | .ok v _ _ errs => (.ok (v, errs), ⟨st.cache ++ [(cs, v)]⟩)
    | .fail e => (.error e, st)
    | .fuelOut => (.error (PyErr.valueError ['f', 'u', 'e', 'l']), st)

/-- The trimmed window computed in `_process_chunk`:
`rough[rough.find('[') : rough.rfind(']') + 1]` when `[` outnumbers `{`,
else `rough[rough.find('{') : rough.rfind('}') + 1]` when both braces
occur, else the text unchanged. -/
def trimWindow (cs : List Char) : List Char :=
  if countChar '[' cs > countChar '{' cs then
    pySlice (pyFind '[' cs).toNat (pyRfind ']' cs + 1).toNat cs
  else if 1 ≤ countChar '{' cs ∧ 1 ≤ countChar '}' cs then
    pySlice (pyFind '{' cs).toNat (pyRfind '}' cs + 1).toNat cs
  else cs

/-- `_process_chunk`.  The `Except` layer models a raised exception:
`indexError` is the unguarded `rough[e.pos]` with `e.pos = len(rough)`,
and `valueError` the `raise ValueError("Failed to parse JSON")` of the
handler (whose `_track_error(str(ex), -1)` lands in a result object the
caller never sees, and whose `_save_failure` is external I/O).  The
`fuelOut` branch of `cachedParse` is unreachable (sufficiency theorem
below) and is folded into the exception case. -/
def processChunkSt (st : FixerSt) (text : List Char) :
    (Except PyErr JsonResultsM) × FixerSt :=
  let rough0 := pyStrip text
  let scanErrs := runScanErrs rough0
  let rough1 := trimWindow rough0
  match strictDecode rough1 with
  | .ok parsed => (.ok ⟨text, dumps parsed, scanErrs⟩, st)
  | .error epos =>
    match rough1.get? epos with
    | none => (.error PyErr.indexError, st)
    | some ec =>
      let errs1 := scanErrs ++ [([ec], (epos : Int))]
      match cachedParse st rough1 with
      | (.ok (v, perrs), st') =>
        let fixed :=
          match v with
          | Val.arr _ => dumps v
          | Val.obj _ => dumps v
          | w => pyStr w
        (.ok ⟨text, fixed, errs1 ++ perrs⟩, st')
      | (.error _, st') =>
        (.error (PyErr.valueError
          ['F', 'a', 'i', 'l', 'e', 'd', ' ', 't', 'o', ' ',
           'p', 'a', 'r', 's', 'e', ' ', 'J', 'S', 'O', 'N']), st')

/-- `_split_into_chunks(text, 5000)`. -/
def splitChunksGo (size : Nat) : Nat → List Char → List (List Char)
  | 0, _ => []
  | f + 1, cs => if cs.isEmpty then [] else cs.take size :: splitChunksGo size f (cs.drop size)

/-- Split a text into consecutive windows of at most `size` characters. -/
def splitChunks (size : Nat) (cs : List Char) : List (List Char) :=
  splitChunksGo size (cs.length + 1) cs

/-- A `JKey` turned back into the value `dict` iteration would yield. -/
def jkeyVal : JKey → Val
  | JKey.str s => Val.str s
  | JKey.num n => Val.num n

/-- One element of a `dict.update(iterable)` sequence: it must itself be
a length-2 sequence whose first component is hashable.  (`bool`/`None`
keys, which Python would accept here, are outside `JKey` and mapped to
`typeError`; no reachable run in the claims produces them.) -/
def pairOfVal : Val → Except PyErr (JKey × Val)
  | Val.arr [k, v] =>
    match k with
    | Val.str s => .ok (JKey.str s, v)
    | Val.num n => .ok (JKey.num n, v)
    | Val.arr _ => .error PyErr.typeError
    | Val.obj _ => .error PyErr.typeError
    | _ => .error PyErr.typeError
  | Val.arr _ => .error PyErr.updateSeqError
  | Val.str [c1, c2] => .ok (JKey.str [c1], Val.str [c2])
  | Val.str _ => .error PyErr.updateSeqError
  | Val.obj fs =>
    match fs with
    | [(k1, _), (k2, _)] => .ok (k1, jkeyVal k2)
    | _ => .error PyErr.updateSeqError
  | _ => .error PyErr.typeError

/-- `merged.update(chunk)` for a parsed chunk value: a `dict` merges by
key union (later wins, insertion position kept), other types follow
Python's update-sequence protocol or raise. -/
def dictUpdate (acc : List (JKey × Val)) (v : Val) :
    Except PyErr (List (JKey × Val)) :=
  match v with
  | Val.obj fs => .ok (fs.foldl (fun a kw => upsert a kw.1 kw.2) acc)
  | Val.arr items =>
    items.foldlM (fun a it => (pairOfVal it).map (fun kw => upsert a kw.1 kw.2)) acc
  | Val.str s => if s.isEmpty then .ok acc else .error PyErr.updateSeqError
  | _ => .error PyErr.typeError

/-- `_process_json_chunk`: strict parse of one window, `{}` on a
`JSONDecodeError`. -/
def chunkParse (cs : List Char) : Val :=
  match strictDecode cs with
  | .ok v => v
  | .error _ => Val.obj []

/-- `load_json`: inputs longer than 10000 characters are split into
5000-character windows, each strictly parsed (failures become `{}`) and
merged by `dict.update`; otherwise `_process_chunk` runs. -/
def loadJsonSt (st : FixerSt) (text : List Char) :
    (Except PyErr JsonResultsM) × FixerSt :=
  if text.length > 10000 then
    let chunks := splitChunks 5000 text
    let parsed := chunks.map chunkParse
    match parsed.foldlM dictUpdate [] with
    | .ok merged => (.ok ⟨text, dumps (Val.obj merged), []⟩, st)
    | .error e => (.error e, st)
  else processChunkSt st text

/-- `JsonFixer().load_json(text)` on a fresh instance. -/
def loadJson (text : List Char) : Except PyErr JsonResultsM :=
  (loadJsonSt emptyFixer text).1

/-- `_process_chunk` on a fresh instance. -/
def processChunk (text : List Char) : Except PyErr JsonResultsM :=
  (processChunkSt emptyFixer text).1

/-- `_is_special_value`: strip and lower-case, recognize `true`/`false`/
`null`, else try `int` (for pure digit strings) or `float`; `None` on
failure. -/
def isSpecialValue (cs : List Char) : Val :=
  let v := (pyStrip cs).map Char.toLower
  if v = ['t', 'r', 'u', 'e'] then Val.bool true
  else if v = ['f', 'a', 'l', 's', 'e'] then Val.bool false
  else if v = ['n', 'u', 'l', 'l'] then Val.null
  else if ¬v.isEmpty ∧ v.all Char.isDigit then
    match pyInt v with
    | some n => Val.num (JNum.int n)
    | none => Val.null
  else
    match pyFloat v with
    | some n => Val.num n
    | none => Val.null

/-- Top-level fields of an object value, `[]` for any other value
(spec-side helper used to state the chunked merge of C7). -/
def objFields : Val → List (JKey × Val)
  | Val.obj fs => fs
  | _ => []

/-- Spec-side "later binding wins" lookup over a flat binding sequence:
the value of the last binding whose key compares equal to `k`. -/
def specLastBinding (bs : List (JKey × Val)) (k : JKey) : Option Val :=
  bs.foldl (fun acc kv => if keyEq kv.1 k then some kv.2 else acc) none

/-- Every key of the binding list is a string (as `json.loads` objects
guarantee). -/
def allStrKeys (bs : List (JKey × Val)) : Prop :=
  ∀ kv ∈ bs, ∃ s, kv.1 = JKey.str s

mutual

/-- No `Null` strictly inside a container (the value itself may be
`null`, but no object member and no array element is). -/
def deepNoNull : Val → Bool
  | Val.arr l => deepNoNullList l
  | Val.obj fs => deepNoNullFields fs
  | _ => true

/-- `deepNoNull` for array elements: no element is `null`, recursively. -/
def deepNoNullList : List Val → Bool
  | [] => true
  | v :: rest =>
    (match v with | Val.null => false | _ => true) && deepNoNull v && deepNoNullList rest

/-- `deepNoNull` for object members: no member value is `null`,
recursively. -/
def deepNoNullFields : List (JKey × Val) → Bool
  | [] => true
  | kv :: rest =>
    (match kv.2 with | Val.null => false | _ => true) && deepNoNull kv.2 &&
      deepNoNullFields rest

end

/-! ### A grammar for syntactically valid JSON output

`JVal cs` says `cs` is a compact (whitespace-free) JSON value in the
dialect of Python's `json` module (RFC 8259 plus the `NaN`/`Infinity`
literals that `json.loads` accepts and `json.dumps` emits).  It is the
specification-side notion of "syntactically valid JSON document" used by
the claims; compactness only makes membership a stronger statement. -/

/-- Digit-only strings. -/
def digitsOnly (l : List Char) : Prop := ∀ c ∈ l, c.isDigit = true

/-- The JSON `int` production `0 | [1-9][0-9]*`. -/
def JIntTok (ip : List Char) : Prop :=
  ip = ['0'] ∨ ∃ c rest, ip = c :: rest ∧ c.isDigit = true ∧ c ≠ '0' ∧ digitsOnly rest

/-- The JSON `number` production (sign, int, optional fraction, optional
exponent). -/
def JNumTok (cs : List Char) : Prop :=
  ∃ sgn ip fr ex : List Char,
    (sgn = [] ∨ sgn = ['-']) ∧ JIntTok ip ∧
    (fr = [] ∨ ∃ ds, ds ≠ [] ∧ digitsOnly ds ∧ fr = '.' :: ds) ∧
    (ex = [] ∨ ∃ e es ds, (e = 'e' ∨ e = 'E') ∧ (es = [] ∨ es = ['+'] ∨ es = ['-']) ∧
      ds ≠ [] ∧ digitsOnly ds ∧ ex = e :: es ++ ds) ∧
    cs = sgn ++ ip ++ fr ++ ex

/-- Body of a JSON string literal: unescaped characters (`0x20` up,
except `"` and `\`), two-character escapes, and `\uXXXX` escapes. -/
inductive JStrBody : List Char → Prop where
  | nil : JStrBody []
  | lit (c : Char) (rest : List Char) : 0x20 ≤ c.toNat → c ≠ '"' → c ≠ '\\' →
      JStrBody rest → JStrBody (c :: rest)
  | esc (c : Char) (rest : List Char) :
      c = '"' ∨ c = '\\' ∨ c = '/' ∨ c = 'b' ∨ c = 'f' ∨ c = 'n' ∨ c = 'r' ∨ c = 't' →
      JStrBody rest → JStrBody ('\\' :: c :: rest)
  | uesc (h1 h2 h3 h4 : Char) (rest : List Char) :
      (hexv h1).isSome → (hexv h2).isSome → (hexv h3).isSome → (hexv h4).isSome →
      JStrBody rest → JStrBody ('\\' :: 'u' :: h1 :: h2 :: h3 :: h4 :: rest)

mutual

/-- Compact JSON value (json-module dialect). -/
inductive JVal : List Char → Prop where
  | null : JVal ['n', 'u', 'l', 'l']
  | tru : JVal ['t', 'r', 'u', 'e']
  | fls : JVal ['f', 'a', 'l', 's', 'e']
  | num (cs : List Char) : JNumTok cs → JVal cs
  | nan : JVal ['N', 'a', 'N']
  | infPos : JVal ['I', 'n', 'f', 'i', 'n', 'i', 't', 'y']
  | infNeg : JVal ['-', 'I', 'n', 'f', 'i', 'n', 'i', 't', 'y']
  | str (b : List Char) : JStrBody b → JVal ('"' :: b ++ ['"'])
  | arrEmpty : JVal ['[', ']']
  | arr (b : List Char) : JElems b → JVal ('[' :: b ++ [']'])
  | objEmpty : JVal ['{', '}']
  | obj (b : List Char) : JMembs b → JVal ('{' :: b ++ ['}'])

/-- Non-empty comma-separated list of compact JSON values. -/
inductive JElems : List Char → Prop where
  | single (v : List Char) : JVal v → JElems v
  | cons (v rest : List Char) : JVal v → JElems rest → JElems (v ++ ',' :: rest)

/-- Non-empty comma-separated list of compact JSON members. -/
inductive JMembs : List Char → Prop where
  | single (b v : List Char) : JStrBody b → JVal v →
      JMembs (('"' :: b ++ ['"']) ++ ':' :: v)
  | cons (b v rest : List Char) : JStrBody b → JVal v → JMembs rest →
      JMembs ((('"' :: b ++ ['"']) ++ ':' :: v) ++ ',' :: rest)

end

/-- The repair paths whose output goes through the canonical serializer:
the chunked path, a successful strict parse of the trimmed text, or a
tolerant parse yielding a `list`/`dict`. -/
def containerRepairPath (s : List Char) : Prop :=
  10000 < s.length ∨
  (strictDecode (trimWindow (pyStrip s))).isOk = true ∨
  (∃ l p rem errs, parseTop (trimWindow (pyStrip s)) = .ok (Val.arr l) p rem errs) ∨
  (∃ fs p rem errs, parseTop (trimWindow (pyStrip s)) = .ok (Val.obj fs) p rem errs)

/-- A non-empty string starting and ending with a non-space character
(so `str.strip()` leaves it unchanged). -/
def EndsOk (l : List Char) : Prop :=
  ∃ c cs, l = c :: cs ∧ pySpace c = false ∧
    ∃ d, l.getLast? = some d ∧ pySpace d = false

/-- Specification-side: index of the first occurrence of a character. -/
def firstIdx (c : Char) (cs : List Char) : Option Nat := cs.findIdx? (· = c)

/-- Specification-side: index of the last occurrence of a character. -/
def lastIdx (c : Char) (cs : List Char) : Option Nat :=
  (cs.reverse.findIdx? (· = c)).map (fun i => cs.length - 1 - i)

/-- Specification-side: the inclusive span of indices `i..j`. -/
def inclSpan (i j : Nat) (cs : List Char) : List Char := (cs.take (j + 1)).drop i

/-- Invariant of the structural scan at index `i`: stack entries hold
quote/bracket characters pushed at earlier positions, and all recorded
errors lie at earlier positions. -/
def ScanInv (st : ScanSt) (i : Nat) : Prop :=
  (∀ e ∈ st.qs, isDelim e.1 = true ∧ e.2 < i) ∧
  (∀ e ∈ st.bs, (e.1 = '[' ∨ e.1 = '{') ∧ e.2 < i) ∧
  (∀ e ∈ st.errs, e.2 < (i : Int))


/-! ### Progress and fuel sufficiency of the tolerant parser -/

theorem psGo_le (q : Option Char) :
    ∀ (rem : List Char) (pos : Nat) (acc : List Char) (esc : Bool),
      (psGo q rem pos acc esc).2.2.2.length ≤ rem.length := by
  intro rem
  induction rem with
  | nil => intro pos acc esc; simp [psGo]
  | cons c rest ih =>
    intro pos acc esc
    simp only [psGo]
    split
    · exact le_trans (ih _ _ _) (Nat.le_succ _)
    · split
      · exact le_trans (ih _ _ _) (Nat.le_succ _)
      · split
        · simp
        · split
          · simp
          · split
            · simp
            · exact le_trans (ih _ _ _) (Nat.le_succ _)

theorem pnGo_le :
    ∀ (rem : List Char) (pos : Nat) (acc : List Char),
      (pnGo rem pos acc).2.2.length ≤ rem.length := by
  intro rem
  induction rem with
  | nil => intro pos acc; simp [pnGo]
  | cons c rest ih =>
    intro pos acc
    simp only [pnGo]
    split
    · exact le_trans (ih _ _) (Nat.le_succ _)
    · simp

theorem skipPy_le : ∀ (rem : List Char) (pos : Nat),
    (skipPy rem pos).2.length ≤ rem.length := by
  intro rem
  induction rem with
  | nil => intro pos; simp [skipPy]
  | cons c rest ih =>
    intro pos
    simp only [skipPy]
    split
    · exact le_trans (ih _) (Nat.le_succ _)
    · simp

theorem skipPyComma_le : ∀ (rem : List Char) (pos : Nat),
    (skipPyComma rem pos).2.length ≤ rem.length := by
  intro rem
  induction rem with
  | nil => intro pos; simp [skipPyComma]
  | cons c rest ih =>
    intro pos
    simp only [skipPyComma]
    split
    · exact le_trans (ih _) (Nat.le_succ _)
    · simp

theorem parseStringR_le (pos : Nat) (rem : List Char) :
    (parseStringR pos rem).2.2.1.length ≤ rem.length := by
  cases rem with
  | nil => simp [parseStringR]
  | cons c rest =>
    simp only [parseStringR]
    split
    · exact le_trans (psGo_le _ _ _ _ _) (Nat.le_succ _)
    · split <;> split <;> exact psGo_le _ _ _ _ _

theorem parseNumberR_le (pos : Nat) (rem : List Char) :
    (parseNumberR pos rem).2.2.length ≤ rem.length := by
  simp only [parseNumberR]
  exact pnGo_le _ _ _

/-- Characters with no special role in the unquoted `parse_string` scan
get consumed on the first step. -/
theorem psGo_consume_head (c : Char) (rest : List Char) (pos : Nat)
    (hb : c ≠ '\\') (h1 : c ≠ ',') (h2 : c ≠ ':') (h3 : c ≠ ']') (h4 : c ≠ '}') :
    psGo none (c :: rest) pos [] false = psGo none rest (pos + 1) [c] false := by
  simp [psGo, hb, h1, h2, h3, h4, pyStrip]

theorem parseStringR_lt_of_head (pos : Nat) (c : Char) (rest : List Char)
    (h : isDelim c ∨ pyAlpha c) :
    (parseStringR pos (c :: rest)).2.2.1.length < (c :: rest).length := by
  by_cases hd : isDelim c
  · simp only [parseStringR, hd, if_true]
    simpa using Nat.lt_succ_of_le (psGo_le _ _ _ _ _)
  · have ha : pyAlpha c := by
      rcases h with h | h
      · exact absurd h hd
      · exact h
    have hb : c ≠ '\\' := by rintro rfl; exact absurd ha (by decide)
    have h1 : c ≠ ',' := by rintro rfl; exact absurd ha (by decide)
    have h2 : c ≠ ':' := by rintro rfl; exact absurd ha (by decide)
    have h3 : c ≠ ']' := by rintro rfl; exact absurd ha (by decide)
    have h4 : c ≠ '}' := by rintro rfl; exact absurd ha (by decide)
    simp only [parseStringR, hd, if_false]
    rw [psGo_consume_head c rest pos hb h1 h2 h3 h4]
    simpa using Nat.lt_succ_of_le (psGo_le _ _ _ _ _)

theorem parseNumberR_lt_of_head (pos : Nat) (c : Char) (rest : List Char)
    (h : c.isDigit ∨ c = '.' ∨ c = '-') :
    (parseNumberR pos (c :: rest)).2.2.length < (c :: rest).length := by
  have hc : (c.isDigit ∨ c = '.' ∨ c = '-' ∨ c = 'e' ∨ c = 'E') := by tauto
  have hif : (if c.isDigit = true ∨ c = '.' ∨ c = '-' ∨ c = 'e' ∨ c = 'E' then
      pnGo rest (pos + 1) ([] ++ [c]) else ([], pos, c :: rest)) = pnGo rest (pos + 1) [c] := by
    simp [hc]
  simp only [parseNumberR, pnGo, hif]
  simpa using Nat.lt_succ_of_le (pnGo_le _ _ _)

/-- Joint progress of the tolerant parser: a successful parse never grows
the remaining input, and `parse` on a non-empty suffix strictly consumes. -/
theorem parse_progress (f : Nat) :
    (∀ pos rem v p r e, parseF f pos rem = .ok v p r e →
        r.length ≤ rem.length ∧ (rem ≠ [] → r.length < rem.length)) ∧
    (∀ pos rem ek ck acc errs v p r e, objLoopF f pos rem ek ck acc errs = .ok v p r e →
        r.length ≤ rem.length) ∧
    (∀ pos rem acc errs v p r e, arrLoopF f pos rem acc errs = .ok v p r e →
        r.length ≤ rem.length) := by
  induction f with
  | zero =>
    refine ⟨?_, ?_, ?_⟩
    · intro pos rem v p r e hres
      simp [parseF] at hres
    · intro pos rem ek ck acc errs v p r e hres
      simp [objLoopF] at hres
    · intro pos rem acc errs v p r e hres
      simp [arrLoopF] at hres
  | succ f ih =>
    obtain ⟨ihP, ihO, ihA⟩ := ih
    refine ⟨?_, ?_, ?_⟩
    · intro pos rem v p r e hres
      cases rem with
      | nil =>
        simp only [parseF, PRes.ok.injEq] at hres
        obtain ⟨-, -, hr, -⟩ := hres
        subst hr
        simp
      | cons c rest =>
        simp only [parseF] at hres
        split at hres
        · have h := (ihP _ _ _ _ _ _ hres).1
          exact ⟨le_trans h (Nat.le_succ _), fun _ => Nat.lt_succ_of_le h⟩
        · split at hres
          · have h := ihO _ _ _ _ _ _ _ _ _ _ hres
            exact ⟨le_trans h (Nat.le_succ _), fun _ => Nat.lt_succ_of_le h⟩
          · split at hres
            · have h := ihA _ _ _ _ _ _ _ _ hres
              exact ⟨le_trans h (Nat.le_succ _), fun _ => Nat.lt_succ_of_le h⟩
            · split at hres
              · next hsa =>
                simp only [PRes.ok.injEq] at hres
                obtain ⟨-, -, hr, -⟩ := hres
                subst hr
                have h := parseStringR_lt_of_head pos c rest hsa
                exact ⟨Nat.le_of_lt h, fun _ => h⟩
              · split at hres
                · next hnum =>
                  simp only [PRes.ok.injEq] at hres
                  obtain ⟨-, -, hr, -⟩ := hres
                  subst hr
                  have h := parseNumberR_lt_of_head pos c rest hnum
                  exact ⟨Nat.le_of_lt h, fun _ => h⟩
                · have h := (ihP _ _ _ _ _ _ hres).1
                  exact ⟨le_trans h (Nat.le_succ _), fun _ => Nat.lt_succ_of_le h⟩
    · intro pos rem ek ck acc errs v p r e hres
      cases rem with
      | nil =>
        simp only [objLoopF, PRes.ok.injEq] at hres
        obtain ⟨-, -, hr, -⟩ := hres
        subst hr
        simp
      | cons c rest =>
        simp only [objLoopF] at hres
        split at hres
        · exact le_trans (ihO _ _ _ _ _ _ _ _ _ _ hres) (Nat.le_succ _)
        · split at hres
          · simp only [PRes.ok.injEq] at hres
            obtain ⟨-, -, hr, -⟩ := hres
            subst hr
            simp
          · split at hres
            · split at hres
              · exact absurd hres (by simp)
              · exact le_trans (ihO _ _ _ _ _ _ _ _ _ _ hres)
                  (parseStringR_le pos (c :: rest))
            · split at hres
              · exact le_trans (ihO _ _ _ _ _ _ _ _ _ _ hres) (Nat.le_succ _)
              · split at hres
                · exact absurd hres (by simp)
                · exact absurd hres (by simp)
                · next v2 pos2 rem2 errs2 hv =>
                  have h1 := (ihP _ _ _ _ _ _ hv).1
                  have h2 := ihO _ _ _ _ _ _ _ _ _ _ hres
                  exact le_trans h2 h1
    · intro pos rem acc errs v p r e hres
      cases rem with
      | nil =>
        simp only [arrLoopF, PRes.ok.injEq] at hres
        obtain ⟨-, -, hr, -⟩ := hres
        subst hr
        simp
      | cons c rest =>
        have hskip := skipPy_le (c :: rest) pos
        simp only [arrLoopF] at hres
        split at hres
        · simp only [PRes.ok.injEq] at hres
          obtain ⟨-, -, hr, -⟩ := hres
          subst hr
          simp
        · next r2 hs1 =>
          simp only [PRes.ok.injEq] at hres
          obtain ⟨-, -, hr, -⟩ := hres
          subst hr
          rw [hs1] at hskip
          simp only [List.length_cons] at hskip ⊢
          omega
        · split at hres
          · exact absurd hres (by simp)
          · exact absurd hres (by simp)
          · next v2 pos2 rem2 errs2 hv =>
            have h1 := (ihP _ _ _ _ _ _ hv).1
            have h2 := ihA _ _ _ _ _ _ _ _ hres
            have h3 := skipPyComma_le rem2 pos2
            exact le_trans h2 (le_trans h3 (le_trans h1 hskip))

/-- Joint fuel sufficiency: with fuel at least `4·|rem| + phase` the
tolerant parser never reports `fuelOut`. -/
theorem parse_fuel_sufficient (f : Nat) :
    (∀ pos rem, 4 * rem.length + 1 ≤ f → parseF f pos rem ≠ .fuelOut) ∧
    (∀ pos rem ek ck acc errs, 4 * rem.length + 3 + (if ek then 1 else 0) ≤ f →
        objLoopF f pos rem ek ck acc errs ≠ .fuelOut) ∧
    (∀ pos rem acc errs, 4 * rem.length + 3 ≤ f →
        arrLoopF f pos rem acc errs ≠ .fuelOut) := by
  induction f with
  | zero =>
    refine ⟨?_, ?_, ?_⟩ <;> intros <;> omega
  | succ f ih =>
    obtain ⟨ihP, ihO, ihA⟩ := ih
    refine ⟨?_, ?_, ?_⟩
    · intro pos rem hf
      cases rem with
      | nil => simp [parseF]
      | cons c rest =>
        simp only [List.length_cons] at hf
        simp only [parseF]
        split
        · exact ihP _ _ (by omega)
        · split
          · exact ihO _ _ _ _ _ _ (by simp; omega)
          · split
            · exact ihA _ _ _ _ (by omega)
            · split
              · simp
              · split
                · simp
                · exact ihP _ _ (by omega)
    · intro pos rem ek ck acc errs hf
      cases rem with
      | nil => simp [objLoopF]
      | cons c rest =>
        simp only [List.length_cons] at hf
        have hif : (if ek = true then 1 else 0) ≤ 1 := by split <;> omega
        simp only [objLoopF]
        split
        · refine ihO _ _ _ _ _ _ ?_
          omega
        · split
          · simp
          · split
            · next hek =>
              simp only [hek, if_true] at hf
              split
              · simp
              · refine ihO _ _ _ _ _ _ ?_
                have := parseStringR_le pos (c :: rest)
                simp only [List.length_cons] at this
                simp only [Bool.false_eq_true, if_false]
                omega
            · split
              · refine ihO _ _ _ _ _ _ ?_
                omega
              · split
                · next heq =>
                  exact absurd heq (ihP _ _ (by simp only [List.length_cons]; omega))
                · simp
                · next v2 pos2 rem2 errs2 heq =>
                  have hlt := ((parse_progress f).1 _ _ _ _ _ _ heq).2 (by simp)
                  simp only [List.length_cons] at hlt
                  refine ihO _ _ _ _ _ _ ?_
                  simp only [if_true]
                  omega
    · intro pos rem acc errs hf
      cases rem with
      | nil => simp [arrLoopF]
      | cons c rest =>
        simp only [List.length_cons] at hf
        have hskip := skipPy_le (c :: rest) pos
        simp only [List.length_cons] at hskip
        simp only [arrLoopF]
        split
        · simp
        · simp
        · next h1 h2 =>
          split
          · next heq =>
            refine absurd heq (ihP _ _ ?_)
            omega
          · simp
          · next v2 pos2 rem2 errs2 heq =>
            have hne : (skipPy (c :: rest) pos).2 ≠ [] := by
              intro hemp
              exact h1 hemp
            have hlt := ((parse_progress f).1 _ _ _ _ _ _ heq).2 hne
            have hcomma := skipPyComma_le rem2 pos2
            refine ihA _ _ _ _ ?_
            omega


theorem deepNoNullFields_upsert (acc : List (JKey × Val)) (k : JKey) (v : Val)
    (hacc : deepNoNullFields acc = true)
    (hv : v ≠ Val.null) (hd : deepNoNull v = true) :
    deepNoNullFields (upsert acc k v) = true := by
  induction acc with
  | nil =>
    simp only [upsert, deepNoNullFields, Bool.and_eq_true]
    refine ⟨⟨?_, hd⟩, trivial⟩
    cases v <;> simp_all
  | cons kv rest ih =>
    simp only [deepNoNullFields, Bool.and_eq_true] at hacc
    obtain ⟨⟨h1, h2⟩, h3⟩ := hacc
    simp only [upsert]
    split
    · simp only [deepNoNullFields, Bool.and_eq_true]
      refine ⟨⟨?_, hd⟩, h3⟩
      cases v <;> simp_all
    · simp only [deepNoNullFields, Bool.and_eq_true]
      exact ⟨⟨h1, h2⟩, ih h3⟩

theorem deepNoNullList_append (acc : List Val) (v : Val)
    (hacc : deepNoNullList acc = true)
    (hv : v ≠ Val.null) (hd : deepNoNull v = true) :
    deepNoNullList (acc ++ [v]) = true := by
  induction acc with
  | nil =>
    simp only [List.nil_append, deepNoNullList, Bool.and_eq_true]
    refine ⟨⟨?_, hd⟩, trivial⟩
    cases v <;> simp_all
  | cons w rest ih =>
    simp only [deepNoNullList, Bool.and_eq_true] at hacc
    obtain ⟨⟨h1, h2⟩, h3⟩ := hacc
    simp only [List.cons_append, deepNoNullList, Bool.and_eq_true]
    exact ⟨⟨h1, h2⟩, ih h3⟩

/-- The tolerant parser drops `Null` bindings and elements: whatever it
returns satisfies `deepNoNull` (given accumulators that do). -/
theorem parse_deepNoNull (f : Nat) :
    (∀ pos rem v p r e, parseF f pos rem = .ok v p r e → deepNoNull v = true) ∧
    (∀ pos rem ek ck acc errs v p r e, deepNoNullFields acc = true →
        objLoopF f pos rem ek ck acc errs = .ok v p r e → deepNoNull v = true) ∧
    (∀ pos rem acc errs v p r e, deepNoNullList acc = true →
        arrLoopF f pos rem acc errs = .ok v p r e → deepNoNull v = true) := by
  induction f with
  | zero =>
    refine ⟨?_, ?_, ?_⟩
    · intro pos rem v p r e hres
      simp [parseF] at hres
    · intro pos rem ek ck acc errs v p r e hacc hres
      simp [objLoopF] at hres
    · intro pos rem acc errs v p r e hacc hres
      simp [arrLoopF] at hres
  | succ f ih =>
    obtain ⟨ihP, ihO, ihA⟩ := ih
    refine ⟨?_, ?_, ?_⟩
    · intro pos rem v p r e hres
      cases rem with
      | nil =>
        simp only [parseF, PRes.ok.injEq] at hres
        obtain ⟨hv, -, -, -⟩ := hres
        subst hv
        simp [deepNoNull]
      | cons c rest =>
        simp only [parseF] at hres
        split at hres
        · exact ihP _ _ _ _ _ _ hres
        · split at hres
          · exact ihO _ _ _ _ _ _ _ _ _ _ (by simp [deepNoNullFields]) hres
          · split at hres
            · exact ihA _ _ _ _ _ _ _ _ (by simp [deepNoNullList]) hres
            · split at hres
              · simp only [PRes.ok.injEq] at hres
                obtain ⟨hv, -, -, -⟩ := hres
                subst hv
                simp only [parseStringR]
                split
                · split <;> simp [deepNoNull]
                · split <;> split <;> simp [deepNoNull]
              · split at hres
                · simp only [PRes.ok.injEq] at hres
                  obtain ⟨hv, -, -, -⟩ := hres
                  subst hv
                  simp only [parseNumberR]
                  split <;> split <;> simp [deepNoNull]
                · exact ihP _ _ _ _ _ _ hres
    · intro pos rem ek ck acc errs v p r e hacc hres
      cases rem with
      | nil =>
        simp only [objLoopF, PRes.ok.injEq] at hres
        obtain ⟨hv, -, -, -⟩ := hres
        subst hv
        simpa [deepNoNull] using hacc
      | cons c rest =>
        simp only [objLoopF] at hres
        split at hres
        · exact ihO _ _ _ _ _ _ _ _ _ _ hacc hres
        · split at hres
          · simp only [PRes.ok.injEq] at hres
            obtain ⟨hv, -, -, -⟩ := hres
            subst hv
            simpa [deepNoNull] using hacc
          · split at hres
            · split at hres
              · exact absurd hres (by simp)
              · exact ihO _ _ _ _ _ _ _ _ _ _ hacc hres
            · split at hres
              · exact ihO _ _ _ _ _ _ _ _ _ _ hacc hres
              · split at hres
                · exact absurd hres (by simp)
                · exact absurd hres (by simp)
                · next v2 pos2 rem2 errs2 hv2 =>
                  have hd2 := ihP _ _ _ _ _ _ hv2
                  refine ihO _ _ _ _ _ _ _ _ _ _ ?_ hres
                  cases hck : ck with
                  | none => simpa [hck] using hacc
                  | some k =>
                    cases v2 with
                    | null => simpa [hck] using hacc
                    | _ =>
                      simp only [hck]
                      exact deepNoNullFields_upsert _ _ _ hacc (by simp) hd2
    · intro pos rem acc errs v p r e hacc hres
      cases rem with
      | nil =>
        simp only [arrLoopF, PRes.ok.injEq] at hres
        obtain ⟨hv, -, -, -⟩ := hres
        subst hv
        simpa [deepNoNull] using hacc
      | cons c rest =>
        simp only [arrLoopF] at hres
        split at hres
        · simp only [PRes.ok.injEq] at hres
          obtain ⟨hv, -, -, -⟩ := hres
          subst hv
          simpa [deepNoNull] using hacc
        · simp only [PRes.ok.injEq] at hres
          obtain ⟨hv, -, -, -⟩ := hres
          subst hv
          simpa [deepNoNull] using hacc
        · split at hres
          · exact absurd hres (by simp)
          · exact absurd hres (by simp)
          · next v2 pos2 rem2 errs2 hv2 =>
            have hd2 := ihP _ _ _ _ _ _ hv2
            refine ihA _ _ _ _ _ _ _ _ ?_ hres
            cases v2 with
            | null => exact hacc
            | _ => exact deepNoNullList_append _ _ hacc (by simp) hd2


theorem digitChar_isDigit {n : Nat} (h : n < 10) : (digitChar n).isDigit = true := by
  interval_cases n <;> decide

theorem natDigitsGo_spec :
    ∀ f n acc, n < f →
      ∃ l, natDigitsGo f n acc = l ++ acc ∧ l ≠ [] ∧ digitsOnly l ∧
        (n = 0 → l = ['0']) ∧ (1 ≤ n → ∃ c cs, l = c :: cs ∧ c ≠ '0' ∧ c.isDigit = true) := by
  intro f
  induction f with
  | zero => intro n acc h; omega
  | succ f ih =>
    intro n acc h
    simp only [natDigitsGo]
    by_cases h10 : n < 10
    · refine ⟨[digitChar n], by simp [h10], by simp, ?_, ?_, ?_⟩
      · intro c hc
        simp at hc
        subst hc
        exact digitChar_isDigit h10
      · intro h0; subst h0; rfl
      · intro h1
        refine ⟨digitChar n, [], rfl, ?_, digitChar_isDigit h10⟩
        interval_cases n <;> simp_all <;> decide
    · have hlt : n / 10 < f := by omega
      obtain ⟨l, hl, hne, hdig, h0, h1⟩ := ih (n / 10) (digitChar (n % 10) :: acc) hlt
      rw [if_neg h10]
      refine ⟨l ++ [digitChar (n % 10)], by simp [hl], by simp [hne], ?_, ?_, ?_⟩
      · intro c hc
        rcases List.mem_append.mp hc with hc | hc
        · exact hdig c hc
        · simp at hc
          subst hc
          exact digitChar_isDigit (Nat.mod_lt _ (by omega))
      · intro h0'; omega
      · intro _
        have hd1 : 1 ≤ n / 10 := by omega
        obtain ⟨c, cs, hc, hc0, hcd⟩ := h1 hd1
        exact ⟨c, cs ++ [digitChar (n % 10)], by simp [hc], hc0, hcd⟩

theorem natDigits_spec (n : Nat) :
    ∃ l, natDigits n = l ∧ l ≠ [] ∧ digitsOnly l ∧
      (n = 0 → l = ['0']) ∧ (1 ≤ n → ∃ c cs, l = c :: cs ∧ c ≠ '0' ∧ c.isDigit = true) := by
  obtain ⟨l, hl, hne, hdig, h0, h1⟩ := natDigitsGo_spec (n + 1) n [] (by omega)
  exact ⟨l, by simpa [natDigits] using hl, hne, hdig, h0, h1⟩

theorem natDigits_intTok (n : Nat) : JIntTok (natDigits n) := by
  obtain ⟨l, hl, hne, hdig, h0, h1⟩ := natDigits_spec n
  rw [hl]
  rcases Nat.eq_zero_or_pos n with hz | hp
  · exact Or.inl (h0 hz)
  · obtain ⟨c, cs, hc, hc0, hcd⟩ := h1 hp
    refine Or.inr ⟨c, cs, hc, hcd, hc0, ?_⟩
    intro d hd
    exact hdig d (by simp [hc, hd])

theorem renderNum_numTok_or_special (n : JNum) :
    JNumTok (renderNum n) ∨ renderNum n = ['N', 'a', 'N'] ∨
      renderNum n = ['I', 'n', 'f', 'i', 'n', 'i', 't', 'y'] ∨
      renderNum n = ['-', 'I', 'n', 'f', 'i', 'n', 'i', 't', 'y'] := by
  cases n with
  | int m =>
    left
    by_cases hm : m < 0
    · refine ⟨['-'], natDigits m.natAbs, [], [], Or.inr rfl, natDigits_intTok _,
        Or.inl rfl, Or.inl rfl, ?_⟩
      simp [renderNum, intRender, hm]
    · refine ⟨[], natDigits m.natAbs, [], [], Or.inl rfl, natDigits_intTok _,
        Or.inl rfl, Or.inl rfl, ?_⟩
      simp [renderNum, intRender, hm]
  | dec neg ip frac ex =>
    left
    cases frac with
    | nil =>
      cases ex with
      | none =>
        refine ⟨(if neg then ['-'] else []), natDigits ip, ['.', '0'], [],
          ?_, natDigits_intTok _, ?_, Or.inl rfl, ?_⟩
        · split <;> simp
        · refine Or.inr ⟨['0'], by simp, ?_, rfl⟩
          intro c hc
          simp at hc
          subst hc
          decide
        · simp [renderNum]
      | some e =>
        obtain ⟨l, hl, hne, hdig, -, -⟩ := natDigits_spec e.natAbs
        refine ⟨(if neg then ['-'] else []), natDigits ip, [],
          'e' :: (if e < 0 then ['-'] else ['+']) ++ natDigits e.natAbs,
          ?_, natDigits_intTok _, Or.inl rfl, ?_, ?_⟩
        · split <;> simp
        · refine Or.inr ⟨'e', (if e < 0 then ['-'] else ['+']), natDigits e.natAbs,
            Or.inl rfl, ?_, ?_, ?_, rfl⟩
          · split <;> simp
          · rw [hl]; exact hne
          · rw [hl]; exact hdig
        · simp only [renderNum, List.append_nil]
          split <;> split <;> simp
    | cons d ds =>
      have hfr : digitsOnly ((d :: ds).map (fun x => digitChar (x % 10))) := by
        intro c hc
        simp only [List.mem_map] at hc
        obtain ⟨x, -, hx⟩ := hc
        subst hx
        exact digitChar_isDigit (Nat.mod_lt _ (by omega))
      cases ex with
      | none =>
        refine ⟨(if neg then ['-'] else []), natDigits ip,
          '.' :: (d :: ds).map (fun x => digitChar (x % 10)), [],
          ?_, natDigits_intTok _, ?_, Or.inl rfl, ?_⟩
        · split <;> simp
        · exact Or.inr ⟨(d :: ds).map (fun x => digitChar (x % 10)), by simp, hfr, rfl⟩
        · simp [renderNum]
      | some e =>
        obtain ⟨l, hl, hne, hdig, -, -⟩ := natDigits_spec e.natAbs
        refine ⟨(if neg then ['-'] else []), natDigits ip,
          '.' :: (d :: ds).map (fun x => digitChar (x % 10)),
          'e' :: (if e < 0 then ['-'] else ['+']) ++ natDigits e.natAbs,
          ?_, natDigits_intTok _, ?_, ?_, ?_⟩
        · split <;> simp
        · exact Or.inr ⟨(d :: ds).map (fun x => digitChar (x % 10)), by simp, hfr, rfl⟩
        · refine Or.inr ⟨'e', (if e < 0 then ['-'] else ['+']), natDigits e.natAbs,
            Or.inl rfl, ?_, ?_, ?_, rfl⟩
          · split <;> simp
          · rw [hl]; exact hne
          · rw [hl]; exact hdig
        · simp only [renderNum, List.append_assoc, List.cons_append]
          split <;> split <;> simp
  | inf neg =>
    cases neg with
    | true => right; right; right; simp [renderNum]
    | false => right; right; left; simp [renderNum]
  | nan => right; left; simp [renderNum]

/-- `renderNum` always produces a token the grammar accepts. -/
theorem renderNum_valid (n : JNum) : JVal (renderNum n) := by
  rcases renderNum_numTok_or_special n with h | h | h | h
  · exact JVal.num _ h
  · rw [h]; exact JVal.nan
  · rw [h]; exact JVal.infPos
  · rw [h]; exact JVal.infNeg

theorem hexChar_isSome {n : Nat} (h : n < 16) : (hexv (hexChar n)).isSome = true := by
  interval_cases n <;> decide

/-- One escaped character concatenates onto a valid string body. -/
theorem dumpChar_strBody (c : Char) (rest : List Char) (h : JStrBody rest) :
    JStrBody (dumpChar c ++ rest) := by
  by_cases h1 : c = '"'
  · subst h1; exact JStrBody.esc _ _ (by tauto) h
  · by_cases h2 : c = '\\'
    · subst h2; exact JStrBody.esc _ _ (by tauto) h
    · by_cases h3 : c = '\x08'
      · subst h3; exact JStrBody.esc _ _ (by tauto) h
      · by_cases h4 : c = '\x0c'
        · subst h4; exact JStrBody.esc _ _ (by tauto) h
        · by_cases h5 : c = '\n'
          · subst h5; exact JStrBody.esc _ _ (by tauto) h
          · by_cases h6 : c = '\r'
            · subst h6; exact JStrBody.esc _ _ (by tauto) h
            · by_cases h7 : c = '\t'
              · subst h7; exact JStrBody.esc _ _ (by tauto) h
              · by_cases h8 : 0x20 ≤ c.toNat ∧ c.toNat ≤ 0x7e
                · have : dumpChar c = [c] := by
                    simp [dumpChar, h1, h2, h3, h4, h5, h6, h7, h8]
                  rw [this]
                  exact JStrBody.lit c rest h8.1 h1 h2 h
                · by_cases h9 : c.toNat < 0x10000
                  · have : dumpChar c = '\\' :: 'u' :: hex4 c.toNat := by
                      simp [dumpChar, h1, h2, h3, h4, h5, h6, h7, h8, h9]
                    rw [this]
                    simp only [hex4, List.cons_append]
                    exact JStrBody.uesc _ _ _ _ _
                      (hexChar_isSome (by omega)) (hexChar_isSome (by omega))
                      (hexChar_isSome (by omega)) (hexChar_isSome (by omega)) h
                  · have : dumpChar c =
                        '\\' :: 'u' :: hex4 (0xd800 + (c.toNat - 0x10000) / 0x400) ++
                          ('\\' :: 'u' :: hex4 (0xdc00 + (c.toNat - 0x10000) % 0x400)) := by
                      simp [dumpChar, h1, h2, h3, h4, h5, h6, h7, h8, h9]
                    rw [this]
                    have hlim : c.toNat < 0x110000 := by
                      have hv := c.valid
                      rcases hv with hv | ⟨-, hv⟩ <;>
                        · simp only [Char.toNat]
                          omega
                    have hb1 : (c.toNat - 0x10000) / 0x400 < 0x400 := by omega
                    have hb2 : (c.toNat - 0x10000) % 0x400 < 0x400 :=
                      Nat.mod_lt _ (by omega)
                    simp only [hex4, List.cons_append, List.append_assoc, List.nil_append]
                    refine JStrBody.uesc _ _ _ _ _
                      (hexChar_isSome (by omega)) (hexChar_isSome (by omega))
                      (hexChar_isSome (by omega)) (hexChar_isSome (by omega)) ?_
                    refine JStrBody.uesc _ _ _ _ _
                      (hexChar_isSome (by omega)) (hexChar_isSome (by omega))
                      (hexChar_isSome (by omega)) (hexChar_isSome (by omega)) h

/-- The serializer's string escaping always yields a valid string body. -/
theorem flatMap_dumpChar_strBody (s : List Char) : JStrBody (s.flatMap dumpChar) := by
  induction s with
  | nil => exact JStrBody.nil
  | cons c rest ih =>
    rw [List.flatMap_cons]
    exact dumpChar_strBody c _ ih

/-- A rendered string literal is a valid JSON value. -/
theorem dumpString_valid (s : List Char) : JVal (dumpString s) :=
  JVal.str _ (flatMap_dumpChar_strBody s)

/-- A rendered key is a quoted string literal. -/
theorem dumpKey_shape (k : JKey) : ∃ b, JStrBody b ∧ dumpKey k = '"' :: b ++ ['"'] := by
  cases k with
  | str s => exact ⟨s.flatMap dumpChar, flatMap_dumpChar_strBody s, rfl⟩
  | num n => exact ⟨(renderNum n).flatMap dumpChar, flatMap_dumpChar_strBody _, rfl⟩

mutual

/-- Whatever value the pipeline serializes, `json.dumps` output is a
syntactically valid JSON document. -/
theorem dumps_valid : ∀ v : Val, JVal (dumps v)
  | Val.null => JVal.null
  | Val.bool true => JVal.tru
  | Val.bool false => JVal.fls
  | Val.num n => renderNum_valid n
  | Val.str s => dumpString_valid s
  | Val.arr [] => JVal.arrEmpty
  | Val.arr (v :: rest) => JVal.arr _ (dumpsList_valid v rest)
  | Val.obj [] => JVal.objEmpty
  | Val.obj (kv :: rest) => JVal.obj _ (dumpsFields_valid kv rest)
termination_by v => sizeOf v
decreasing_by all_goals (simp_arith)

/-- Rendered array elements form a valid element list. -/
theorem dumpsList_valid : ∀ (v : Val) (rest : List Val), JElems (dumpsList (v :: rest))
  | v, [] => JElems.single _ (dumps_valid v)
  | v, w :: rest => JElems.cons _ _ (dumps_valid v) (dumpsList_valid w rest)
termination_by v rest => sizeOf v + sizeOf rest
decreasing_by all_goals (simp_arith)

/-- Rendered object members form a valid member list. -/
theorem dumpsFields_valid : ∀ (kv : JKey × Val) (rest : List (JKey × Val)),
    JMembs (dumpsFields (kv :: rest))
  | (k, v), [] => by
    obtain ⟨b, hb, hk⟩ := dumpKey_shape k
    have : dumpsFields [(k, v)] = ('"' :: b ++ ['"']) ++ ':' :: dumps v := by
      simp [dumpsFields, hk]
    rw [this]
    exact JMembs.single _ _ hb (dumps_valid v)
  | (k, v), kw :: rest => by
    obtain ⟨b, hb, hk⟩ := dumpKey_shape k
    have : dumpsFields ((k, v) :: kw :: rest) =
        (('"' :: b ++ ['"']) ++ ':' :: dumps v) ++ ',' :: dumpsFields (kw :: rest) := by
      simp [dumpsFields, hk]
    rw [this]
    exact JMembs.cons _ _ _ hb (dumps_valid v) (dumpsFields_valid kw rest)
termination_by kv rest => sizeOf kv + sizeOf rest
decreasing_by all_goals (simp_arith)

end

/-! ### Claim C1 -/


/-- First character of a JSON number token. -/
theorem numTok_head {c : Char} {rest : List Char} (h : JNumTok (c :: rest)) :
    c = '-' ∨ c.isDigit = true := by
  obtain ⟨sgn, ip, fr, ex, hsgn, hip, -, -, hcs⟩ := h
  rcases hsgn with hsgn | hsgn
  · subst hsgn
    simp only [List.nil_append] at hcs
    rcases hip with hip | ⟨d, ds, hds, hd, -, -⟩
    · subst hip
      simp only [List.cons_append] at hcs
      cases hcs
      right; decide
    · subst hds
      simp only [List.cons_append] at hcs
      cases hcs
      right; exact hd
  · subst hsgn
    simp only [List.cons_append, List.nil_append] at hcs
    cases hcs
    left; rfl

/-- First character of any compact JSON value. -/
theorem JVal_head {c : Char} {rest : List Char} (h : JVal (c :: rest)) :
    c = 'n' ∨ c = 't' ∨ c = 'f' ∨ c = '-' ∨ c.isDigit = true ∨ c = 'N' ∨ c = 'I' ∨
      c = '"' ∨ c = '[' ∨ c = '{' := by
  generalize hcs : c :: rest = cs at h
  cases h with
  | null => cases hcs; tauto
  | tru => cases hcs; tauto
  | fls => cases hcs; tauto
  | nan => cases hcs; tauto
  | infPos => cases hcs; tauto
  | infNeg => cases hcs; tauto
  | num cs hn =>
    subst hcs
    rcases numTok_head hn with h | h <;> tauto
  | str b hb =>
    rw [List.cons_append] at hcs
    cases hcs
    tauto
  | arrEmpty => cases hcs; tauto
  | arr b hb =>
    rw [List.cons_append] at hcs
    cases hcs
    tauto
  | objEmpty => cases hcs; tauto
  | obj b hb =>
    rw [List.cons_append] at hcs
    cases hcs
    tauto

/-- C1 (amended): whenever `load_json` returns a `Result` through a path
that serializes a parsed value — a successful strict parse, a tolerant
parse yielding an object or array, or the chunked path — the `fixed`
field is a syntactically valid JSON document.  (When the tolerant parse
yields a scalar, `fixed` is Python's `str()` of it, which need not be
valid JSON — see the counterexample.) -/
theorem C1_container_paths_fixed_valid (s : List Char) (r : JsonResultsM)
    (hok : loadJson s = .ok r) (hpath : containerRepairPath s) :
    JVal r.fixed := by
  unfold loadJson loadJsonSt at hok
  by_cases hlen : 10000 < s.length
  · rw [if_pos hlen] at hok
    simp only at hok
    split at hok
    · simp only [Prod.fst, Except.ok.injEq] at hok
      cases hok
      exact dumps_valid _
    · exact absurd hok (by simp)
  · rw [if_neg hlen] at hok
    unfold processChunkSt at hok
    rcases hpath with hp | hp | hp | hp
    · omega
    · simp only at hok
      split at hok
      · next parsed heq =>
        simp only [Except.ok.injEq] at hok
        cases hok
        exact dumps_valid _
      · next epos heq =>
        rw [heq] at hp
        simp [Except.isOk, Except.toBool] at hp
    · obtain ⟨l, p, rem, errs, hpt⟩ := hp
      simp only at hok
      split at hok
      · next parsed heq =>
        simp only [Except.ok.injEq] at hok
        cases hok
        exact dumps_valid _
      · split at hok
        · exact absurd hok (by simp)
        · simp only [cachedParse, cacheLookup, emptyFixer] at hok
          rw [hpt] at hok
          simp only [Except.ok.injEq] at hok
          cases hok
          exact dumps_valid _
    · obtain ⟨fs, p, rem, errs, hpt⟩ := hp
      simp only at hok
      split at hok
      · next parsed heq =>
        simp only [Except.ok.injEq] at hok
        cases hok
        exact dumps_valid _
      · split at hok
        · exact absurd hok (by simp)
        · simp only [cachedParse, cacheLookup, emptyFixer] at hok
          rw [hpt] at hok
          simp only [Except.ok.injEq] at hok
          cases hok
          exact dumps_valid _

/-- C1 witness: the theorem applied to the concrete input `{"a":1}`. -/
theorem C1_container_paths_fixed_valid_witness :
    JVal ['{', '"', 'a', '"', ':', '1', '}'] := by
  have h := C1_container_paths_fixed_valid "\x7b\"a\":1\x7d".data
    ⟨"\x7b\"a\":1\x7d".data, ['{', '"', 'a', '"', ':', '1', '}'], []⟩
    (by rfl) (Or.inr (Or.inl (by decide)))
  exact h

/-- C1 counterexample: on input `hello` the pipeline returns a `Result`
whose `fixed` is `hello` — not the empty string, not valid JSON (neither
in the grammar nor for the strict decoder the code itself uses). -/
theorem C1_counterexample :
    loadJson ['h', 'e', 'l', 'l', 'o'] =
      .ok ⟨['h', 'e', 'l', 'l', 'o'], ['h', 'e', 'l', 'l', 'o'], [(['h'], 0)]⟩ ∧
    ['h', 'e', 'l', 'l', 'o'] ≠ [] ∧
    ¬ JVal ['h', 'e', 'l', 'l', 'o'] ∧
    strictDecode ['h', 'e', 'l', 'l', 'o'] = .error 0 := by
  refine ⟨by rfl, by simp, ?_, by rfl⟩
  intro h
  rcases JVal_head h with h' | h' | h' | h' | h' | h' | h' | h' | h' | h' <;> simp_all

/-! ### Claim C2 -/

theorem isDigit_bounds {c : Char} (h : c.isDigit = true) :
    48 ≤ c.toNat ∧ c.toNat ≤ 57 := by
  simp only [Char.isDigit, Bool.and_eq_true, decide_eq_true_eq] at h
  obtain ⟨h1, h2⟩ := h
  simp only [Char.le_def, UInt32.le_def, BitVec.le_def] at h1 h2
  exact ⟨h1, h2⟩

theorem digit_not_space {c : Char} (h : c.isDigit = true) : pySpace c = false := by
  have hb := isDigit_bounds h
  simp only [pySpace, decide_eq_false_iff_not]
  push_neg
  omega

/-- The non-space character classes dumps output starts and ends with. -/
theorem not_space_of_mem {c : Char}
    (h : c ∈ ['n', 'e', 't', 'f', '"', '[', ']', '{', '}', '-', '+', 'l', 'y', 'N', 'I', '0', '.']) :
    pySpace c = false := by
  fin_cases h <;> decide


theorem endsOk_single {c : Char} (h : pySpace c = false) : EndsOk [c] :=
  ⟨c, [], rfl, h, c, rfl, h⟩

theorem endsOk_append {a b : List Char} (ha : EndsOk a) (hb : EndsOk b) :
    EndsOk (a ++ b) := by
  obtain ⟨c, cs, hce, hc, -, -, -⟩ := ha
  obtain ⟨c2, cs2, hce2, -, d, hd, hds⟩ := hb
  subst hce
  refine ⟨c, cs ++ b, by simp, hc, d, ?_, hds⟩
  rw [List.getLast?_append]
  simp [hd]

theorem endsOk_append_opt {a b : List Char} (ha : EndsOk a)
    (hb : b = [] ∨ EndsOk b) : EndsOk (a ++ b) := by
  rcases hb with hb | hb
  · subst hb; simpa using ha
  · exact endsOk_append ha hb

theorem optEndsOk_append {a b : List Char} (ha : a = [] ∨ EndsOk a)
    (hb : b = [] ∨ EndsOk b) : a ++ b = [] ∨ EndsOk (a ++ b) := by
  rcases ha with ha | ha
  · subst ha; simpa using hb
  · exact Or.inr (endsOk_append_opt ha hb)

theorem endsOk_of_digits {ds : List Char} (hne : ds ≠ []) (hdig : digitsOnly ds) :
    EndsOk ds := by
  cases ds with
  | nil => exact absurd rfl hne
  | cons c cs =>
    refine ⟨c, cs, rfl, digit_not_space (hdig c (by simp)), ?_⟩
    refine ⟨(c :: cs).getLast (by simp), List.getLast?_eq_getLast _ _, ?_⟩
    exact digit_not_space (hdig _ (List.getLast_mem _))

theorem endsOk_cons_digits {c : Char} (hc : pySpace c = false) {ds : List Char}
    (hne : ds ≠ []) (hdig : digitsOnly ds) : EndsOk (c :: ds) := by
  have : c :: ds = [c] ++ ds := by simp
  rw [this]
  exact endsOk_append (endsOk_single hc) (endsOk_of_digits hne hdig)

theorem natDigits_endsOk (n : Nat) : EndsOk (natDigits n) := by
  obtain ⟨l, hl, hne, hdig, -, -⟩ := natDigits_spec n
  rw [hl]
  exact endsOk_of_digits hne hdig

theorem renderNum_endsOk (n : JNum) : EndsOk (renderNum n) := by
  cases n with
  | int m =>
    by_cases hm : m < 0
    · have : renderNum (JNum.int m) = ['-'] ++ natDigits m.natAbs := by
        simp [renderNum, intRender, hm]
      rw [this]
      exact endsOk_append (endsOk_single (by decide)) (natDigits_endsOk _)
    · have : renderNum (JNum.int m) = natDigits m.natAbs := by
        simp [renderNum, intRender, hm]
      rw [this]
      exact natDigits_endsOk _
  | dec neg ip frac ex =>
    have hsgn : ∀ core : List Char, EndsOk core →
        EndsOk ((if neg then ['-'] else []) ++ core) := by
      intro core hcore
      cases neg with
      | true => exact endsOk_append (endsOk_single (by decide)) hcore
      | false => simpa using hcore
    have hexp : ∀ e : Int,
        EndsOk ('e' :: (if e < 0 then '-' else '+') :: natDigits e.natAbs) := by
      intro e
      obtain ⟨l, hl, hne, hdig, -, -⟩ := natDigits_spec e.natAbs
      have hsh : 'e' :: (if e < 0 then '-' else '+') :: natDigits e.natAbs =
          ['e'] ++ ((if e < 0 then '-' else '+') :: natDigits e.natAbs) := rfl
      rw [hsh]
      refine endsOk_append (endsOk_single (by decide))
        (endsOk_cons_digits ?_ (by rw [hl]; exact hne) (by rw [hl]; exact hdig))
      split <;> decide
    cases frac with
    | nil =>
      cases ex with
      | none =>
        have hsh : renderNum (JNum.dec neg ip [] none) =
            (if neg then ['-'] else []) ++ (natDigits ip ++ ['.', '0']) := by
          simp [renderNum]
        rw [hsh]
        refine hsgn _ (endsOk_append (natDigits_endsOk ip) ?_)
        refine endsOk_cons_digits (by decide) (by simp) ?_
        intro x hx
        simp at hx
        subst hx
        decide
      | some e =>
        have hsh : renderNum (JNum.dec neg ip [] (some e)) =
            (if neg then ['-'] else []) ++ (natDigits ip ++
              ('e' :: (if e < 0 then '-' else '+') :: natDigits e.natAbs)) := by
          simp [renderNum]
        rw [hsh]
        exact hsgn _ (endsOk_append (natDigits_endsOk ip) (hexp e))
    | cons fr frs =>
      have hfrac : EndsOk ('.' :: (fr :: frs).map (fun d => digitChar (d % 10))) := by
        refine endsOk_cons_digits (by decide) (by simp) ?_
        intro x hx
        simp only [List.mem_map] at hx
        obtain ⟨y, -, hy⟩ := hx
        subst hy
        exact digitChar_isDigit (Nat.mod_lt _ (by omega))
      cases ex with
      | none =>
        have hsh : renderNum (JNum.dec neg ip (fr :: frs) none) =
            (if neg then ['-'] else []) ++ (natDigits ip ++
              ('.' :: (fr :: frs).map (fun d => digitChar (d % 10)))) := by
          simp [renderNum]
        rw [hsh]
        exact hsgn _ (endsOk_append (natDigits_endsOk ip) hfrac)
      | some e =>
        have hsh : renderNum (JNum.dec neg ip (fr :: frs) (some e)) =
            (if neg then ['-'] else []) ++ (natDigits ip ++
              (('.' :: (fr :: frs).map (fun d => digitChar (d % 10))) ++
                ('e' :: (if e < 0 then '-' else '+') :: natDigits e.natAbs))) := by
          simp [renderNum]
        rw [hsh]
        exact hsgn _ (endsOk_append (natDigits_endsOk ip) (endsOk_append hfrac (hexp e)))
  | inf neg =>
    cases neg with
    | true =>
      refine ⟨'-', ['I', 'n', 'f', 'i', 'n', 'i', 't', 'y'], by simp [renderNum], by decide,
        'y', by simp [renderNum], by decide⟩
    | false =>
      refine ⟨'I', ['n', 'f', 'i', 'n', 'i', 't', 'y'], by simp [renderNum], by decide,
        'y', by simp [renderNum], by decide⟩
  | nan =>
    exact ⟨'N', ['a', 'N'], by simp [renderNum], by decide, 'N', by simp [renderNum], by decide⟩

/-- Serializer output starts and ends with a non-space character. -/
theorem dumps_endsOk (v : Val) : EndsOk (dumps v) := by
  cases v with
  | null => exact ⟨'n', ['u', 'l', 'l'], by simp [dumps], by decide, 'l', by simp [dumps], by decide⟩
  | bool b =>
    cases b with
    | true => exact ⟨'t', ['r', 'u', 'e'], by simp [dumps], by decide, 'e', by simp [dumps], by decide⟩
    | false =>
      exact ⟨'f', ['a', 'l', 's', 'e'], by simp [dumps], by decide, 'e', by simp [dumps], by decide⟩
  | num n => exact renderNum_endsOk n
  | str s =>
    refine ⟨'"', s.flatMap dumpChar ++ ['"'], by simp [dumps, dumpString], by decide, '"', ?_, by decide⟩
    show ('"' :: (s.flatMap dumpChar ++ ['"'])).getLast? = some '"'
    rw [← List.cons_append, List.getLast?_concat]
  | arr l =>
    refine ⟨'[', dumpsList l ++ [']'], by simp [dumps], by decide, ']', ?_, by decide⟩
    show ('[' :: (dumpsList l ++ [']'])).getLast? = some ']'
    rw [← List.cons_append, List.getLast?_concat]
  | obj fs =>
    refine ⟨'{', dumpsFields fs ++ ['}'], by simp [dumps], by decide, '}', ?_, by decide⟩
    show ('{' :: (dumpsFields fs ++ ['}'])).getLast? = some '}'
    rw [← List.cons_append, List.getLast?_concat]

/-- `str.strip()` of a string with non-space ends is the identity. -/
theorem pyStrip_eq_self {l : List Char} (h : EndsOk l) : pyStrip l = l := by
  obtain ⟨c, cs, hce, hc, d, hd, hds⟩ := h
  have h1 : l.dropWhile pySpace = l := by
    rw [hce]
    simp [List.dropWhile_cons, hc]
  have h2 : l.reverse.dropWhile pySpace = l.reverse := by
    have hhead : l.reverse.head? = some d := by
      rw [List.head?_reverse]
      exact hd
    cases hrev : l.reverse with
    | nil => simp [hrev] at hhead
    | cons d2 t =>
      rw [hrev] at hhead
      simp only [List.head?_cons, Option.some.injEq] at hhead
      subst hhead
      simp [List.dropWhile_cons, hds]
  unfold pyStrip
  rw [h1, h2, List.reverse_reverse]

/-- `str.strip()` leaves serializer output unchanged. -/
theorem pyStrip_dumps (v : Val) : pyStrip (dumps v) = dumps v :=
  pyStrip_eq_self (dumps_endsOk v)

/-- C2 (amended): repairing already-canonical JSON of at most 10000
characters returns `fixed` byte-identical to the input, provided the
structural trim leaves the text unchanged (the counterexample shows the
trim condition is necessary; the length condition avoids the lossy
chunked path of `load_json`). -/
theorem C2_canonical_roundtrip (s : List Char) (v : Val)
    (hparse : strictDecode s = .ok v) (hdump : dumps v = s)
    (htrim : trimWindow s = s) (hlen : s.length ≤ 10000) :
    ∃ r, loadJson s = .ok r ∧ r.fixed = s := by
  have hstrip : pyStrip s = s := by rw [← hdump]; exact pyStrip_dumps v
  refine ⟨⟨s, s, runScanErrs s⟩, ?_, rfl⟩
  unfold loadJson loadJsonSt
  rw [if_neg (by omega)]
  unfold processChunkSt
  simp only [hstrip, htrim, hparse, hdump]

/-- C2 witness: the theorem applied to the spec's own example
`{"speed":50.5}`. -/
theorem C2_canonical_roundtrip_witness :
    ∃ r, loadJson "\x7b\"speed\":50.5\x7d".data = .ok r ∧
      r.fixed = "\x7b\"speed\":50.5\x7d".data := by
  exact C2_canonical_roundtrip _
    (Val.obj [(JKey.str ['s', 'p', 'e', 'e', 'd'], Val.num (JNum.dec false 50 [5] none))])
    (by rfl) (by rfl) (by rfl) (by decide)

/-- C2 counterexample: `"a{b}c"` is canonical JSON (it strict-parses and
re-serializes to itself), yet `load_json` trims to the brace span `{b}`
and returns `fixed = {}`, not the input. -/
theorem C2_counterexample :
    strictDecode "\"a\x7bb\x7dc\"".data = .ok (Val.str ['a', '{', 'b', '}', 'c']) ∧
    dumps (Val.str ['a', '{', 'b', '}', 'c']) = "\"a\x7bb\x7dc\"".data ∧
    loadJson "\"a\x7bb\x7dc\"".data =
      .ok ⟨"\"a\x7bb\x7dc\"".data, ['{', '}'], [(['b'], 1)]⟩ ∧
    (['{', '}'] : List Char) ≠ "\"a\x7bb\x7dc\"".data := by
  refine ⟨by rfl, by rfl, by rfl, by decide⟩

/-! ### Claims C3, C4, C5, C6 -/

/-- C3 (amended): with the fuel `parse` is given, the tolerant parser
always terminates — `parseF`, `objLoopF` and `arrLoopF` never exhaust
their fuel for any input text and starting index (`parse_string` and
`parse_number` are plain total scans by construction).  Termination is
not the same as never raising: the counterexample shows `parse_object`
raising `AttributeError` when an unquoted key parses to a non-falsy
number; every other malformed construct is absorbed. -/
theorem C3_tolerant_parse_terminates (rem : List Char) (pos : Nat) (ek : Bool)
    (ck : Option JKey) (acc : List (JKey × Val)) (arrAcc : List Val)
    (errs : List ErrObs) :
    parseF (parseFuel rem) pos rem ≠ .fuelOut ∧
    objLoopF (parseFuel rem) pos rem ek ck acc errs ≠ .fuelOut ∧
    arrLoopF (parseFuel rem) pos rem arrAcc errs ≠ .fuelOut := by
  obtain ⟨hP, hO, hA⟩ := parse_fuel_sufficient (parseFuel rem)
  refine ⟨hP _ _ ?_, hO _ _ _ _ _ _ ?_, hA _ _ _ _ ?_⟩
  · simp only [parseFuel]; omega
  · simp only [parseFuel]; split <;> omega
  · simp only [parseFuel]; omega

/-- C3 counterexample: the claim "the tolerant Value Parser never
raises" is false — on `{5: 1}` the unquoted key `5` parses to the `int`
`5` and `_cleanup_string(5).strip()` raises `AttributeError`. -/
theorem C3_counterexample :
    parseTop "\x7b5: 1\x7d".data = .fail (PyErr.attrError ['i', 'n', 't']) := by rfl

/-- C4: the claim is the code's evident intent, but the recording step
itself is broken at the boundary: when the strict parse fails at
position `len(rough)` (for instance on the empty input, rejected at
position `0 = len("")`), the unguarded `rough[e.pos]` raises
`IndexError`, which propagates to the caller instead of the documented
behavior.  This theorem evaluates the pipeline at the failing input. -/
theorem C4_boundary_IndexError :
    strictDecode (trimWindow (pyStrip ([] : List Char))) = .error 0 ∧
    (trimWindow (pyStrip ([] : List Char))).get? 0 = none ∧
    processChunk [] = .error PyErr.indexError ∧
    loadJson [] = .error PyErr.indexError := by
  exact ⟨rfl, rfl, rfl, rfl⟩

/-- C5 (amended): `_is_special_value` does recognize the
case-insensitive atoms `true`/`false`/`null` (and numbers), but the
tolerant parser never invokes it: bare atoms in object/array value
positions are returned as strings by `parse_string`. -/
theorem C5_atoms_recognized_but_unused :
    isSpecialValue [' ', 'T', 'R', 'U', 'E', ' '] = Val.bool true ∧
    isSpecialValue ['f', 'a', 'l', 's', 'e'] = Val.bool false ∧
    isSpecialValue ['N', 'u', 'l', 'l'] = Val.null ∧
    parseTop "[true]".data =
      .ok (Val.arr [Val.str ['t', 'r', 'u', 'e']]) 6 [] [] ∧
    parseTop "\x7ba: false\x7d".data =
      .ok (Val.obj [(JKey.str ['a'], Val.str ['f', 'a', 'l', 's', 'e'])]) 10 [] [] ∧
    parseTop "\x7b\"a\": null\x7d".data =
      .ok (Val.obj [(JKey.str ['a'], Val.str ['n', 'u', 'l', 'l'])]) 11 [] [] := by
  exact ⟨rfl, rfl, rfl, rfl, rfl, rfl⟩

/-- C5 counterexample: in an array value position the bare atom `true`
stays the string `"true"`; it is not converted to a boolean. -/
theorem C5_counterexample :
    parseTop "[true]".data = .ok (Val.arr [Val.str ['t', 'r', 'u', 'e']]) 6 [] [] ∧
    Val.str ['t', 'r', 'u', 'e'] ≠ Val.bool true := by
  refine ⟨rfl, by simp⟩

/-- C6 (amended): a value slot that parses to `Null` is never recorded —
everything the tolerant parser returns satisfies `deepNoNull`: no object
member value and no array element is `Null`, recursively.  (The claim's
parenthetical "the key does not appear in the returned object" fails for
duplicate keys — see the counterexample — so the accurate statement is
about the binding, not the key.) -/
theorem C6_null_slots_dropped (cs : List Char) (v : Val) (p : Nat)
    (r : List Char) (e : List ErrObs) (h : parseTop cs = .ok v p r e) :
    deepNoNull v = true :=
  (parse_deepNoNull (parseFuel cs)).1 0 cs v p r e h

/-- C6 witness: the theorem applied to the concrete parse of `[1]`. -/
theorem C6_null_slots_dropped_witness :
    deepNoNull (Val.arr [Val.num (JNum.int 1)]) = true :=
  C6_null_slots_dropped "[1]".data _ 3 [] [] (by rfl)

/-- C6 counterexample: in `{"a":1,"a":@` the second value slot for key
`"a"` parses to `Null` (the `@` is skipped and the text ends), yet the
key `"a"` still appears in the returned object with its first value —
"the key is dropped (it does not appear in the returned object)" is
false as stated. -/
theorem C6_counterexample :
    parseTop "\x7b\"a\":1,\"a\":@".data =
      .ok (Val.obj [(JKey.str ['a'], Val.num (JNum.int 1))]) 12 [] [] ∧
    parseF (parseFuel ['@']) 11 ['@'] = .ok Val.null 12 [] [] := by
  exact ⟨rfl, rfl⟩

/-! ### Claim C8 -/


theorem pyFind_eq {c : Char} {cs : List Char} {i : Nat}
    (h : firstIdx c cs = some i) : pyFind c cs = (i : Int) := by
  simp only [firstIdx] at h
  simp [pyFind, h]

theorem pyRfind_eq {c : Char} {cs : List Char} {j : Nat}
    (h : lastIdx c cs = some j) : pyRfind c cs = (j : Int) := by
  simp only [lastIdx, Option.map_eq_some'] at h
  obtain ⟨i, hi, hj⟩ := h
  subst hj
  simp [pyRfind, hi]

/-- C8: the trimmed window is the inclusive `first [ .. last ]` span
when `[` strictly outnumbers `{`; else the inclusive `first { .. last }`
span when at least one `{` and one `}` occur; else the text unchanged. -/
theorem C8_trim_window_characterization (cs : List Char) :
    (∀ i j, countChar '{' cs < countChar '[' cs →
      firstIdx '[' cs = some i → lastIdx ']' cs = some j →
      trimWindow cs = inclSpan i j cs) ∧
    (∀ i j, ¬ countChar '{' cs < countChar '[' cs →
      1 ≤ countChar '{' cs → 1 ≤ countChar '}' cs →
      firstIdx '{' cs = some i → lastIdx '}' cs = some j →
      trimWindow cs = inclSpan i j cs) ∧
    (¬ countChar '{' cs < countChar '[' cs →
      ¬ (1 ≤ countChar '{' cs ∧ 1 ≤ countChar '}' cs) →
      trimWindow cs = cs) := by
  refine ⟨?_, ?_, ?_⟩
  · intro i j hcnt hfirst hlast
    have hf := pyFind_eq hfirst
    have hl := pyRfind_eq hlast
    unfold trimWindow
    rw [if_pos hcnt, hf, hl]
    have h1 : ((i : Int)).toNat = i := by omega
    have h2 : ((j : Int) + 1).toNat = j + 1 := by omega
    rw [h1, h2]
    rfl
  · intro i j hcnt hone htwo hfirst hlast
    have hf := pyFind_eq hfirst
    have hl := pyRfind_eq hlast
    unfold trimWindow
    rw [if_neg hcnt, if_pos ⟨hone, htwo⟩, hf, hl]
    have h1 : ((i : Int)).toNat = i := by omega
    have h2 : ((j : Int) + 1).toNat = j + 1 := by omega
    rw [h1, h2]
    rfl
  · intro hcnt hbr
    unfold trimWindow
    rw [if_neg hcnt, if_neg hbr]

/-- C8 witness: the theorem applied to concrete inputs covering all
three cases (`x[1]y`, `a{b}c`, `abc`). -/
theorem C8_trim_window_characterization_witness :
    trimWindow "x[1]y".data = inclSpan 1 3 "x[1]y".data ∧
    trimWindow "a\x7bb\x7dc".data = inclSpan 1 3 "a\x7bb\x7dc".data ∧
    trimWindow "abc".data = "abc".data := by
  refine ⟨?_, ?_, ?_⟩
  · exact (C8_trim_window_characterization "x[1]y".data).1 1 3 (by decide)
      (by decide) (by decide)
  · exact (C8_trim_window_characterization "a\x7bb\x7dc".data).2.1 1 3 (by decide)
      (by decide) (by decide) (by decide) (by decide)
  · exact (C8_trim_window_characterization "abc".data).2.2 (by decide) (by decide)

/-! ### Claim C9 -/


theorem scanInv_init : ScanInv scanInit 0 := by
  refine ⟨?_, ?_, ?_⟩ <;> intro e he <;> simp [scanInit] at he

theorem scanStep_inv {st : ScanSt} {i : Nat} (c : Char) (h : ScanInv st i) :
    ScanInv (scanStep st i c) (i + 1) := by
  obtain ⟨hq, hb, he⟩ := h
  unfold scanStep
  repeat' split
  all_goals refine ⟨fun e hme => ?_, fun e hme => ?_, fun e hme => ?_⟩
  all_goals (try dsimp only at hme)
  all_goals try (exact ⟨(hq e hme).1, Nat.lt_succ_of_lt (hq e hme).2⟩)
  all_goals try (exact ⟨(hb e hme).1, Nat.lt_succ_of_lt (hb e hme).2⟩)
  all_goals try (exact lt_of_lt_of_le (he e hme) (Int.ofNat_le.mpr (Nat.le_succ i)))
  all_goals try (guard_hyp hme : e ∈ [(c, i)]
                 simp only [List.mem_singleton] at hme
                 subst hme
                 exact ⟨by simpa using ‹isDelim c = true›, Nat.lt_succ_self i⟩)
  all_goals try (guard_hyp hme : e ∈ (c, i) :: st.bs
                 rcases List.mem_cons.mp hme with h1 | h1
                 · subst h1
                   refine ⟨?_, Nat.lt_succ_self i⟩
                   have hcb := ‹c = '[' ∨ c = '{'›
                   simpa using hcb
                 · exact ⟨(hb e h1).1, Nat.lt_succ_of_lt (hb e h1).2⟩)
  all_goals try (guard_hyp hme : e ∈ st.errs ++ []
                 rw [List.append_nil] at hme
                 exact lt_of_lt_of_le (he e hme) (Int.ofNat_le.mpr (Nat.le_succ i)))
  all_goals try (guard_hyp hme : e ∈ st.errs ++ [([c], (i : Int))]
                 rcases List.mem_append.mp hme with h1 | h1
                 · exact lt_of_lt_of_le (he e h1) (Int.ofNat_le.mpr (Nat.le_succ i))
                 · simp only [List.mem_singleton] at h1
                   subst h1
                   show (i : Int) < ((i + 1 : Nat) : Int)
                   exact Int.ofNat_lt.mpr (Nat.lt_succ_self i))
  all_goals try (rename_i lq lp restQ hqs hne
                 guard_hyp hme : e ∈ st.errs ++ [([c], (i : Int)), ([lq], (lp : Int))]
                 rcases List.mem_append.mp hme with h1 | h1
                 · exact lt_of_lt_of_le (he e h1) (Int.ofNat_le.mpr (Nat.le_succ i))
                 · rcases List.mem_cons.mp h1 with h2 | h2
                   · subst h2
                     show (i : Int) < ((i + 1 : Nat) : Int)
                     exact Int.ofNat_lt.mpr (Nat.lt_succ_self i)
                   · simp only [List.mem_singleton] at h2
                     subst h2
                     have h3 := (hq (lq, lp) (by rw [hqs]; exact List.mem_cons_self _ _)).2
                     show (lp : Int) < ((i + 1 : Nat) : Int)
                     exact Int.ofNat_lt.mpr (Nat.lt_succ_of_lt h3))
  all_goals try (rename_i lq lp restB hbs hx
                 guard_hyp hbs : st.bs = (lq, lp) :: restB
                 split at hme <;> (try dsimp only at hme) <;>
                   first
                   | exact ⟨(hq e hme).1, Nat.lt_succ_of_lt (hq e hme).2⟩
                   | exact lt_of_lt_of_le (he e hme) (Int.ofNat_le.mpr (Nat.le_succ i))
                   | (simp only [List.mem_append, List.mem_cons, List.not_mem_nil,
                        or_false] at hme
                      rcases hme with h1 | h1 | h1
                      · exact lt_of_lt_of_le (he e h1) (Int.ofNat_le.mpr (Nat.le_succ i))
                      · subst h1
                        show (i : Int) < ((i + 1 : Nat) : Int)
                        exact Int.ofNat_lt.mpr (Nat.lt_succ_self i)
                      · subst h1
                        have h3 := (hb (lq, lp) (by rw [hbs]; exact List.mem_cons_self _ _)).2
                        show (lp : Int) < ((i + 1 : Nat) : Int)
                        exact Int.ofNat_lt.mpr (Nat.lt_succ_of_lt h3))
                   | (have h4 : e ∈ st.bs := by rw [hbs]; exact List.mem_cons_of_mem _ hme
                      exact ⟨(hb e h4).1, Nat.lt_succ_of_lt (hb e h4).2⟩))
  all_goals try (rename_i lq lp restQ hqs hceq
                 guard_hyp hqs : st.qs = (lq, lp) :: restQ
                 have h4 : e ∈ st.qs := by rw [hqs]; exact List.mem_cons_of_mem _ hme
                 exact ⟨(hq e h4).1, Nat.lt_succ_of_lt (hq e h4).2⟩)

theorem scanGo_inv {st : ScanSt} {i : Nat} (l : List Char) (h : ScanInv st i) :
    ScanInv (scanGo st i l) (i + l.length) := by
  induction l generalizing st i with
  | nil => simpa using h
  | cons c rest ih =>
    have := ih (scanStep_inv c h)
    simpa [scanGo, Nat.add_comm, Nat.add_assoc, Nat.add_left_comm] using this


/-- Every step extends the error list on the right (it never deletes entries). -/
theorem scanStep_errs_prefix (st : ScanSt) (i : Nat) (c : Char) :
    ∃ l, (scanStep st i c).errs = st.errs ++ l := by
  unfold scanStep
  repeat' split
  all_goals (try dsimp only)
  all_goals repeat' split
  all_goals first
    | exact ⟨[], (List.append_nil _).symm⟩
    | exact ⟨_, rfl⟩

/-- Error entries survive the rest of the scan. -/
theorem scanGo_errs_mono {st : ScanSt} {i : Nat} {e : ErrObs} (cs : List Char)
    (hm : e ∈ st.errs) : e ∈ (scanGo st i cs).errs := by
  induction cs generalizing st i with
  | nil => exact hm
  | cons c rest ih =>
    show e ∈ (scanGo (scanStep st i c) (i + 1) rest).errs
    apply ih
    obtain ⟨l, hl⟩ := scanStep_errs_prefix st i c
    rw [hl]
    exact List.mem_append.mpr (Or.inl hm)

/-- Scanning a concatenation scans the two parts in sequence. -/
theorem scanGo_append (st : ScanSt) (i : Nat) (xs ys : List Char) :
    scanGo st i (xs ++ ys) = scanGo (scanGo st i xs) (i + xs.length) ys := by
  induction xs generalizing st i with
  | nil => simp [scanGo]
  | cons c rest ih =>
    show scanGo (scanStep st i c) (i + 1) (rest ++ ys) = _
    rw [ih]
    simp [scanGo, Nat.add_assoc, Nat.add_comm, Nat.add_left_comm]

/-- A colon-keyed error entry produced by one step is either old or sits at the
current index: the stack-derived entries recorded on mismatches never carry the
key `:` because stacks only hold quote delimiters and open brackets. -/
theorem scanStep_errs_colon {st : ScanSt} {i : Nat} {c : Char} {p : Int}
    (hinv : ScanInv st i)
    (hm : ([':'], p) ∈ (scanStep st i c).errs) :
    ([':'], p) ∈ st.errs ∨ p = (i : Int) := by
  obtain ⟨hq, hb, he⟩ := hinv
  revert hm
  unfold scanStep
  repeat' split
  all_goals (try dsimp only)
  all_goals repeat' split
  all_goals intro hm
  all_goals (try dsimp only at hm)
  all_goals try (exact Or.inl hm)
  all_goals try (guard_hyp hm : ([':'], p) ∈ st.errs ++ []
                 rw [List.append_nil] at hm
                 exact Or.inl hm)
  all_goals try (guard_hyp hm : ([':'], p) ∈ st.errs ++ [([c], (i : Int))]
                 rcases List.mem_append.mp hm with h1 | h1
                 · exact Or.inl h1
                 · simp only [List.mem_singleton] at h1
                   exact Or.inr (congrArg Prod.snd h1))
  all_goals try (rename_i lq lp restQ hqs hne
                 guard_hyp hm : ([':'], p) ∈ st.errs ++ [([c], (i : Int)), ([lq], (lp : Int))]
                 rcases List.mem_append.mp hm with h1 | h1
                 · exact Or.inl h1
                 · rcases List.mem_cons.mp h1 with h2 | h2
                   · exact Or.inr (congrArg Prod.snd h2)
                   · exfalso
                     simp only [List.mem_singleton, Prod.mk.injEq, List.cons.injEq] at h2
                     obtain ⟨⟨hk, -⟩, -⟩ := h2
                     have hd := (hq (lq, lp) (by rw [hqs]; exact List.mem_cons_self _ _)).1
                     rw [← hk] at hd
                     have hfd : isDelim ':' = false := by decide
                     rw [hfd] at hd
                     exact Bool.false_ne_true hd)
  all_goals try (rename_i lq lp restB hbs hoc hne
                 guard_hyp hm : ([':'], p) ∈ st.errs ++ [([c], (i : Int)), ([lq], (lp : Int))]
                 rcases List.mem_append.mp hm with h1 | h1
                 · exact Or.inl h1
                 · rcases List.mem_cons.mp h1 with h2 | h2
                   · exact Or.inr (congrArg Prod.snd h2)
                   · exfalso
                     simp only [List.mem_singleton, Prod.mk.injEq, List.cons.injEq] at h2
                     obtain ⟨⟨hk, -⟩, -⟩ := h2
                     have hd := (hb (lq, lp) (by rw [hbs]; exact List.mem_cons_self _ _)).1
                     rcases hd with hd | hd <;> rw [← hk] at hd
                     · have hne2 : ¬(':' = '[') := by decide
                       exact hne2 hd
                     · have hne2 : ¬(':' = '\x7b') := by decide
                       exact hne2 hd)

/-- Over a whole scan segment, a colon-keyed error entry is either old or was
recorded at an index inside the segment. -/
theorem scanGo_errs_colon {st : ScanSt} {i : Nat} {p : Int} (cs : List Char)
    (hinv : ScanInv st i)
    (hm : ([':'], p) ∈ (scanGo st i cs).errs) :
    ([':'], p) ∈ st.errs ∨ (i : Int) ≤ p := by
  induction cs generalizing st i with
  | nil => exact Or.inl hm
  | cons c rest ih =>
    have hm2 : ([':'], p) ∈ (scanGo (scanStep st i c) (i + 1) rest).errs := hm
    rcases ih (scanStep_inv c hinv) hm2 with h1 | h1
    · rcases scanStep_errs_colon hinv h1 with h2 | h2
      · exact Or.inl h2
      · exact Or.inr (le_of_eq h2.symm)
    · refine Or.inr (le_trans ?_ h1)
      exact_mod_cast Nat.le_succ i

/-- The end-of-scan stack dumps never add a colon-keyed entry: stacks only hold
quote delimiters and open brackets, and the synthetic closers are brackets. -/
theorem scanFinish_colon {st : ScanSt} {len : Nat} {p : Int}
    (hq : ∀ e ∈ st.qs, isDelim e.1 = true)
    (hb : ∀ e ∈ st.bs, e.1 = '[' ∨ e.1 = '\x7b')
    (hm : ([':'], p) ∈ scanFinish st len) :
    ([':'], p) ∈ st.errs := by
  unfold scanFinish at hm
  have hfd : isDelim ':' = false := by decide
  rcases List.mem_append.mp hm with h1 | h1
  · rcases List.mem_append.mp h1 with h2 | h2
    · exact h2
    · exfalso
      obtain ⟨a, ha, hin⟩ := List.mem_flatMap.mp h2
      have had : isDelim a.1 = true := hq a (List.mem_reverse.mp ha)
      rcases List.mem_cons.mp hin with h3 | h3
      · simp only [Prod.mk.injEq, List.cons.injEq] at h3
        obtain ⟨⟨hk, -⟩, -⟩ := h3
        rw [← hk, hfd] at had
        exact Bool.false_ne_true had
      · simp only [List.mem_singleton, Prod.mk.injEq, List.cons.injEq] at h3
        obtain ⟨⟨hk, -⟩, -⟩ := h3
        rw [← hk, hfd] at had
        exact Bool.false_ne_true had
  · exfalso
    obtain ⟨a, ha, hin⟩ := List.mem_flatMap.mp h1
    have had := hb a (List.mem_reverse.mp ha)
    rcases List.mem_cons.mp hin with h3 | h3
    · simp only [Prod.mk.injEq, List.cons.injEq] at h3
      obtain ⟨⟨hk, -⟩, -⟩ := h3
      rcases had with hd | hd <;> rw [← hk] at hd
      · have hne2 : ¬(':' = '[') := by decide
        exact hne2 hd
      · have hne2 : ¬(':' = '\x7b') := by decide
        exact hne2 hd
    · simp only [List.mem_singleton, Prod.mk.injEq, List.cons.injEq] at h3
      obtain ⟨⟨hk, -⟩, -⟩ := h3
      revert hk
      split
      · intro hk
        have hne2 : ¬(':' = ']') := by decide
        exact hne2 hk
      · intro hk
        have hne2 : ¬(':' = '\x7d') := by decide
        exact hne2 hk

/-- C9: in the structural scan, a `:` outside quotes is recorded as an error
exactly when the "expecting key" flag is FALSE at that point (the code tracks
the error under `if not key_mode`), and the `:` always clears the flag to
false. The claim's direction — "an error is recorded exactly when the flag is
true" — is inverted; the clearing half is confirmed. Stated over an arbitrary
scanned prefix `pre` (with the colon outside quotes, i.e. the quote stack is
empty after `pre`) and an arbitrary suffix `suf`: the colon's error entry at
position `pre.length` appears in the full scan's observations iff the flag
was false just before the colon. -/
theorem C9_colon_error_iff_not_expecting_key (pre suf : List Char)
    (hq0 : (scanGo scanInit 0 pre).qs = []) :
    (scanStep (scanGo scanInit 0 pre) pre.length ':').km = false ∧
      ((([':'], (pre.length : Int)) ∈ runScanErrs (pre ++ ':' :: suf)) ↔
        (scanGo scanInit 0 pre).km = false) := by
  have hdel : isDelim ':' = false := rfl
  have hinv : ScanInv (scanGo scanInit 0 pre) pre.length := by
    have h0 := @scanGo_inv scanInit 0 pre scanInv_init
    simpa using h0
  have hkm : (scanStep (scanGo scanInit 0 pre) pre.length ':').km = false := by
    simp [scanStep, hq0, hdel]
  refine ⟨hkm, ?_⟩
  have hrun : runScanErrs (pre ++ ':' :: suf)
      = scanFinish
          (scanGo (scanStep (scanGo scanInit 0 pre) pre.length ':') (pre.length + 1) suf)
          (pre ++ ':' :: suf).length := by
    unfold runScanErrs
    rw [scanGo_append]
    simp [scanGo]
  have hinv1 : ScanInv (scanStep (scanGo scanInit 0 pre) pre.length ':') (pre.length + 1) :=
    scanStep_inv ':' hinv
  constructor
  · intro hmem
    by_contra hkmt
    have hkm2 : (scanGo scanInit 0 pre).km = true := by
      cases hbv : (scanGo scanInit 0 pre).km
      · exact absurd hbv hkmt
      · rfl
    have herr : (scanStep (scanGo scanInit 0 pre) pre.length ':').errs
        = (scanGo scanInit 0 pre).errs := by
      simp [scanStep, hq0, hdel, hkm2]
    have hfin : ScanInv
        (scanGo (scanStep (scanGo scanInit 0 pre) pre.length ':') (pre.length + 1) suf)
        (pre.length + 1 + suf.length) := scanGo_inv suf hinv1
    rw [hrun] at hmem
    have hmem2 := scanFinish_colon (fun e he => (hfin.1 e he).1)
      (fun e he => (hfin.2.1 e he).1) hmem
    rcases scanGo_errs_colon suf hinv1 hmem2 with h1 | h1
    · rw [herr] at h1
      exact absurd (hinv.2.2 _ h1) (lt_irrefl _)
    · have h2 : ((pre.length + 1 : Nat) : Int) ≤ (pre.length : Int) := h1
      omega
  · intro hkmf
    have herr : (scanStep (scanGo scanInit 0 pre) pre.length ':').errs
        = (scanGo scanInit 0 pre).errs ++ [([':'], (pre.length : Int))] := by
      simp [scanStep, hq0, hdel, hkmf]
    rw [hrun]
    unfold scanFinish
    refine List.mem_append.mpr (Or.inl (List.mem_append.mpr (Or.inl ?_)))
    apply scanGo_errs_mono
    rw [herr]
    exact List.mem_append.mpr (Or.inr (List.mem_singleton.mpr rfl))

theorem C9_colon_error_iff_not_expecting_key_witness :
    (scanStep (scanGo scanInit 0 ['\x7b']) (['\x7b'] : List Char).length ':').km = false ∧
      ((([':'], ((['\x7b'] : List Char).length : Int)) ∈ runScanErrs (['\x7b'] ++ ':' :: ['\x7d'])) ↔
        (scanGo scanInit 0 ['\x7b']).km = false) :=
  C9_colon_error_iff_not_expecting_key ['\x7b'] ['\x7d'] rfl

/-- C9 counterexample: scanning the two-character text `::`. Before the first
colon (position 0) the "expecting key" flag is true — the spec's claim
predicts an error there — yet the scan's whole observation list is just
`[([':'], 1)]`: no error at position 0, and an error at position 1, where the
flag had been cleared to false. Both directions of the claimed
characterization fail. -/
theorem C9_counterexample :
    (scanGo scanInit 0 ([] : List Char)).km = true ∧
      runScanErrs [':', ':'] = [([':'], (1 : Int))] := ⟨rfl, rfl⟩

/-- Appending a fresh key to the cache makes it hit that key. -/
theorem cacheLookup_append {c : List (List Char × Val)} {k : List Char} (v : Val)
    (h : cacheLookup c k = none) :
    cacheLookup (c ++ [(k, v)]) k = some v := by
  induction c with
  | nil => simp [cacheLookup]
  | cons kv rest ih =>
    rcases kv with ⟨k', v'⟩
    by_cases hk : k' = k
    · exfalso
      rw [show cacheLookup ((k', v') :: rest) k = some v' by simp [cacheLookup, hk]] at h
      exact Option.noConfusion h
    · have h2 : cacheLookup rest k = none := by
        rw [show cacheLookup ((k', v') :: rest) k = cacheLookup rest k by
          simp [cacheLookup, hk]] at h
        exact h
      simpa [cacheLookup, hk] using ih h2

/-- C10: repeating `load_json` on the same `JsonFixer` instance yields the
same `fixed` string (and the same raised exception, if any): the tolerant
parser itself is deterministic and the memo cache returns exactly the value
the parser would have produced.  The other half of the claim — identical
error maps — is false (see the counterexample): a memo hit skips the
parser's own `_track_error` calls, so the second call's error map can lose
entries. -/
theorem C10_repeat_load_same_fixed (st0 : FixerSt) (text : List Char) :
    ((loadJsonSt (loadJsonSt st0 text).2 text).1).map (fun r => r.fixed)
      = ((loadJsonSt st0 text).1).map (fun r => r.fixed) := by
  by_cases hlen : text.length > 10000
  · simp only [loadJsonSt, if_pos hlen]
    cases hm : ((splitChunks 5000 text).map chunkParse).foldlM dictUpdate [] with
    | ok merged => simp [hm]
    | error e => simp [hm]
  · simp only [loadJsonSt, if_neg hlen]
    unfold processChunkSt
    cases hsd : strictDecode (trimWindow (pyStrip text)) with
    | ok parsed => simp [hsd]
    | error epos =>
      cases hget : (trimWindow (pyStrip text))[epos]? with
      | none => simp [hsd, hget]
      | some ec =>
        cases hcl : cacheLookup st0.cache (trimWindow (pyStrip text)) with
        | some v => simp [hsd, hget, cachedParse, hcl]
        | none =>
          cases hpt : parseTop (trimWindow (pyStrip text)) with
          | ok v pos rem errs =>
            have h2 : cacheLookup (st0.cache ++ [(trimWindow (pyStrip text), v)])
                (trimWindow (pyStrip text)) = some v := cacheLookup_append v hcl
            simp [hsd, hget, cachedParse, hcl, hpt, h2, Except.map]
          | fail e => simp [hsd, hget, cachedParse, hcl, hpt]
          | fuelOut => simp [hsd, hget, cachedParse, hcl, hpt]

/-- C10 counterexample: on the three-character input `{"a`, a fresh
instance's first call and the immediately following second call return the
same `fixed` (`{}`) but different error maps: the first call's map has the
quote positions `[1, 3, 1, 1]`, the second — served from the memo cache, so
the tolerant parser's own `_track_error(char, 1)` never re-fires — only
`[1, 3, 1]`.  Memoization is observable, contradicting "no observable
effect". -/
theorem C10_counterexample :
    ∃ r1 r2 : JsonResultsM,
      (loadJsonSt emptyFixer ['\x7b', '"', 'a']).1 = .ok r1 ∧
      ((loadJsonSt (loadJsonSt emptyFixer ['\x7b', '"', 'a']).2 ['\x7b', '"', 'a']).1) = .ok r2 ∧
      r1.fixed = r2.fixed ∧
      resultErrors r1 ≠ resultErrors r2 := by
  refine ⟨⟨['\x7b', '"', 'a'], ['\x7b', '\x7d'],
    [(['"'], 1), (['"'], 3), (['\x7b'], 0), (['\x7d'], 3), (['"'], 1), (['"'], 1)]⟩,
    ⟨['\x7b', '"', 'a'], ['\x7b', '\x7d'],
    [(['"'], 1), (['"'], 3), (['\x7b'], 0), (['\x7d'], 3), (['"'], 1)]⟩,
    rfl, rfl, rfl, ?_⟩
  decide

/-! ### Merge algebra for the chunked path (C7) -/

theorem allStrKeys_upsert : ∀ (a : List (JKey × Val)) (k : JKey) (v : Val),
    allStrKeys a → (∃ s, k = JKey.str s) → allStrKeys (upsert a k v)
  | [], k, v, _, hk => by
      intro kv hkv
      simp only [upsert, List.mem_singleton] at hkv
      subst hkv
      exact hk
  | (k0, v0) :: rest, k, v, ha, hk => by
      intro kv hkv
      rw [upsert] at hkv
      by_cases h0 : keyEq k0 k
      · rw [if_pos h0] at hkv
        rcases List.mem_cons.mp hkv with h | h
        · subst h
          exact ha (k0, v0) (List.mem_cons_self _ _)
        · exact ha kv (List.mem_cons_of_mem _ h)
      · rw [if_neg h0] at hkv
        rcases List.mem_cons.mp hkv with h | h
        · subst h
          exact ha (k0, v0) (List.mem_cons_self _ _)
        · exact allStrKeys_upsert rest k v
            (fun e he => ha e (List.mem_cons_of_mem _ he)) hk kv h

theorem alookup_upsert_str : ∀ (a : List (JKey × Val)), allStrKeys a →
    ∀ (sk s : List Char) (v : Val),
    alookup (upsert a (JKey.str sk) v) (JKey.str s)
      = if sk = s then some v else alookup a (JKey.str s)
  | [], _, sk, s, v => by
      by_cases h : sk = s <;> simp [upsert, alookup, keyEq, h]
  | (k0, v0) :: rest, ha, sk, s, v => by
      obtain ⟨s0, hs0⟩ := ha (k0, v0) (List.mem_cons_self _ _)
      dsimp only at hs0
      subst hs0
      have hrest : allStrKeys rest := fun e he => ha e (List.mem_cons_of_mem _ he)
      by_cases h0 : s0 = sk
      · subst h0
        by_cases h1 : s0 = s
        · subst h1
          simp [upsert, alookup, keyEq]
        · simp [upsert, alookup, keyEq, h1]
      · have hne : keyEq (JKey.str s0) (JKey.str sk) = false := by
          simp [keyEq, h0]
        by_cases h1 : s0 = s
        · subst h1
          have hne2 : sk ≠ s0 := fun hc => h0 hc.symm
          simp [upsert, alookup, keyEq, hne, h0, hne2]
        · simp [upsert, alookup, keyEq, hne, h0, h1,
            alookup_upsert_str rest hrest sk s v]

theorem foldl_lastBinding (k : JKey) : ∀ (bs : List (JKey × Val)) (init : Option Val),
    bs.foldl (fun acc kv => if keyEq kv.1 k then some kv.2 else acc) init
      = match specLastBinding bs k with
        | some v => some v
        | none => init
  | [], init => by simp [specLastBinding]
  | kv :: rest, init => by
      rw [List.foldl_cons]
      rw [foldl_lastBinding k rest (if keyEq kv.1 k then some kv.2 else init)]
      rw [show specLastBinding (kv :: rest) k
          = rest.foldl (fun acc kw => if keyEq kw.1 k then some kw.2 else acc)
              (if keyEq kv.1 k then some kv.2 else none) from rfl]
      rw [foldl_lastBinding k rest (if keyEq kv.1 k then some kv.2 else none)]
      cases hsl : specLastBinding rest k with
      | some v => simp
      | none => by_cases hk : keyEq kv.1 k <;> simp [hk]

theorem allStrKeys_foldl : ∀ (bs : List (JKey × Val)), allStrKeys bs →
    ∀ (acc : List (JKey × Val)), allStrKeys acc →
    allStrKeys (bs.foldl (fun a kv => upsert a kv.1 kv.2) acc)
  | [], _, acc, hacc => by simpa using hacc
  | kv :: rest, hbs, acc, hacc => by
      rw [List.foldl_cons]
      exact allStrKeys_foldl rest (fun e he => hbs e (List.mem_cons_of_mem _ he))
        (upsert acc kv.1 kv.2)
        (allStrKeys_upsert acc kv.1 kv.2 hacc (hbs kv (List.mem_cons_self _ _)))

theorem foldl_upsert_alookup : ∀ (bs : List (JKey × Val)), allStrKeys bs →
    ∀ (acc : List (JKey × Val)), allStrKeys acc → ∀ (s : List Char),
    alookup (bs.foldl (fun a kv => upsert a kv.1 kv.2) acc) (JKey.str s)
      = match specLastBinding bs (JKey.str s) with
        | some v => some v
        | none => alookup acc (JKey.str s)
  | [], _, acc, _, s => by simp [specLastBinding]
  | kv :: rest, hbs, acc, hacc, s => by
      obtain ⟨sk, hsk⟩ := hbs kv (List.mem_cons_self _ _)
      have hrest : allStrKeys rest := fun e he => hbs e (List.mem_cons_of_mem _ he)
      rw [List.foldl_cons]
      rw [foldl_upsert_alookup rest hrest (upsert acc kv.1 kv.2)
          (allStrKeys_upsert acc kv.1 kv.2 hacc ⟨sk, hsk⟩) s]
      rw [show specLastBinding (kv :: rest) (JKey.str s)
          = rest.foldl (fun acc kw => if keyEq kw.1 (JKey.str s) then some kw.2 else acc)
              (if keyEq kv.1 (JKey.str s) then some kv.2 else none) from rfl]
      rw [foldl_lastBinding (JKey.str s) rest _]
      cases hsl : specLastBinding rest (JKey.str s) with
      | some v => simp
      | none =>
        simp only []
        rw [hsk]
        rw [alookup_upsert_str acc hacc sk s kv.2]
        by_cases h : sk = s <;> simp [keyEq, h]

theorem foldlM_dictUpdate_objs : ∀ (vs : List Val),
    (∀ v ∈ vs, ∃ fs, v = Val.obj fs) →
    ∀ (acc : List (JKey × Val)),
    vs.foldlM dictUpdate acc
      = Except.ok ((vs.flatMap objFields).foldl (fun a kv => upsert a kv.1 kv.2) acc)
  | [], _, acc => by rfl
  | v :: rest, h, acc => by
      obtain ⟨fs, hv⟩ := h v (List.mem_cons_self _ _)
      subst hv
      rw [List.foldlM_cons]
      rw [show dictUpdate acc (Val.obj fs)
          = Except.ok (fs.foldl (fun a kw => upsert a kw.1 kw.2) acc) from rfl]
      rw [show ((Except.ok (fs.foldl (fun a kw => upsert a kw.1 kw.2) acc) :
            Except PyErr (List (JKey × Val))) >>= fun acc2 => rest.foldlM dictUpdate acc2)
          = rest.foldlM dictUpdate (fs.foldl (fun a kw => upsert a kw.1 kw.2) acc) from rfl]
      rw [foldlM_dictUpdate_objs rest (fun w hw => h w (List.mem_cons_of_mem _ hw)) _]
      congr 1
      rw [show (Val.obj fs :: rest).flatMap objFields
          = fs ++ rest.flatMap objFields from by simp [objFields]]
      rw [List.foldl_append]

/-! ### Strict-parser object keys are strings (C7) -/

theorem arrMembers_arr (f : Nat) : ∀ (pos : Nat) (rem : List Char) (acc : List Val)
    (v : Val) (p : Nat) (r : List Char),
    arrMembers f pos rem acc = SRes.ok v p r → ∃ items, v = Val.arr items := by
  induction f with
  | zero =>
    intro pos rem acc v p r h
    simp [arrMembers] at h
  | succ f ih =>
    intro pos rem acc v p r h
    unfold arrMembers at h
    repeat' (first
      | (split at h)
      | (dsimp only at h))
    all_goals try (cases h)
    all_goals try (exact ⟨_, rfl⟩)
    all_goals exact ih _ _ _ _ _ _ h

theorem objMembers_obj (f : Nat) : ∀ (pos : Nat) (rem : List Char)
    (acc : List (JKey × Val)) (v : Val) (p : Nat) (r : List Char),
    allStrKeys acc → objMembers f pos rem acc = SRes.ok v p r →
    ∃ fs, v = Val.obj fs ∧ allStrKeys fs := by
  induction f with
  | zero =>
    intro pos rem acc v p r _ h
    simp [objMembers] at h
  | succ f ih =>
    intro pos rem acc v p r hacc h
    unfold objMembers at h
    repeat' (first
      | (split at h)
      | (dsimp only at h))
    all_goals try (cases h)
    all_goals try (exact ⟨_, rfl, allStrKeys_upsert _ _ _ hacc ⟨_, rfl⟩⟩)
    all_goals exact ih _ _ _ _ _ _ (allStrKeys_upsert _ _ _ hacc ⟨_, rfl⟩) h

theorem scanObjF_obj (f : Nat) (pos : Nat) (rem : List Char) (v : Val) (p : Nat)
    (r : List Char) (h : scanObjF f pos rem = SRes.ok v p r) :
    ∃ fs, v = Val.obj fs ∧ allStrKeys fs := by
  match f with
  | 0 => simp [scanObjF] at h
  | f + 1 =>
    unfold scanObjF at h
    repeat' (first
      | (split at h)
      | (dsimp only at h))
    all_goals try (cases h)
    all_goals try (exact ⟨[], rfl, fun kv hkv => absurd hkv (List.not_mem_nil _)⟩)
    all_goals exact (objMembers_obj f _ _ _ _ _ _
        (fun kv hkv => absurd hkv (List.not_mem_nil _)) h)

theorem scanArrF_arr (f : Nat) (pos : Nat) (rem : List Char) (v : Val) (p : Nat)
    (r : List Char) (h : scanArrF f pos rem = SRes.ok v p r) :
    ∃ items, v = Val.arr items := by
  match f with
  | 0 => simp [scanArrF] at h
  | f + 1 =>
    unfold scanArrF at h
    repeat' (first
      | (split at h)
      | (dsimp only at h))
    all_goals try (cases h)
    all_goals try (exact ⟨_, rfl⟩)
    all_goals exact arrMembers_arr f _ _ _ _ _ _ h

theorem scanValueF_obj (f : Nat) (pos : Nat) (rem : List Char)
    (fs : List (JKey × Val)) (p : Nat) (r : List Char)
    (h : scanValueF f pos rem = SRes.ok (Val.obj fs) p r) : allStrKeys fs := by
  match f with
  | 0 => simp [scanValueF] at h
  | f + 1 =>
    unfold scanValueF at h
    repeat' (first
      | (split at h)
      | (dsimp only at h))
    all_goals try (cases h)
    all_goals try (exact (Exists.elim (scanObjF_obj f _ _ _ _ _ h)
        (fun fs2 hp => by cases hp.1; exact hp.2)))
    all_goals exact (Exists.elim (scanArrF_arr f _ _ _ _ _ h)
        (fun its hit => Val.noConfusion hit))

theorem strictDecode_obj (cs : List Char) (fs : List (JKey × Val))
    (h : strictDecode cs = Except.ok (Val.obj fs)) : allStrKeys fs := by
  unfold strictDecode at h
  repeat' (first
    | (split at h)
    | (dsimp only at h))
  all_goals try (cases h)
  all_goals exact scanValueF_obj _ _ _ _ _ _ (by assumption)

theorem chunkParse_obj_keys (cs : List Char) (fs : List (JKey × Val))
    (h : chunkParse cs = Val.obj fs) : allStrKeys fs := by
  unfold chunkParse at h
  split at h
  · subst h
    exact strictDecode_obj cs _ (by assumption)
  · cases h
    intro kv hkv
    exact absurd hkv (List.not_mem_nil _)

/-! ### Chunk splitting properties (C7) -/

theorem splitChunksGo_nil (size f : Nat) : splitChunksGo size f [] = [] := by
  cases f <;> simp [splitChunksGo]

theorem splitChunksGo_cons (size f : Nat) (cs : List Char) (he : ¬cs.isEmpty) :
    splitChunksGo size (f + 1) cs
      = cs.take size :: splitChunksGo size f (cs.drop size) := by
  simp [splitChunksGo, he]

theorem splitChunksGo_flatten (size : Nat) (hs : 0 < size) :
    ∀ (f : Nat) (cs : List Char), cs.length < f →
      (splitChunksGo size f cs).flatten = cs := by
  intro f
  induction f with
  | zero => intro cs h; exact absurd h (Nat.not_lt_zero _)
  | succ f ih =>
    intro cs h
    by_cases he : cs.isEmpty
    · rw [List.isEmpty_iff.mp he]
      simp [splitChunksGo]
    · rw [splitChunksGo_cons size f cs he]
      have hne : cs ≠ [] := by simpa [List.isEmpty_iff] using he
      have hpos : 0 < cs.length := List.length_pos.mpr hne
      rw [List.flatten_cons, ih (cs.drop size) (by simp [List.length_drop]; omega)]
      exact List.take_append_drop size cs

theorem splitChunks_flatten (size : Nat) (hs : 0 < size) (cs : List Char) :
    (splitChunks size cs).flatten = cs :=
  splitChunksGo_flatten size hs (cs.length + 1) cs (Nat.lt_succ_self _)

theorem splitChunksGo_window_len (size : Nat) (hs : 0 < size) :
    ∀ (f : Nat) (cs w : List Char), w ∈ splitChunksGo size f cs →
      1 ≤ w.length ∧ w.length ≤ size := by
  intro f
  induction f with
  | zero => intro cs w hw; simp [splitChunksGo] at hw
  | succ f ih =>
    intro cs w hw
    by_cases he : cs.isEmpty
    · simp [splitChunksGo, he] at hw
    · rw [splitChunksGo_cons size f cs he] at hw
      rcases List.mem_cons.mp hw with h | h
      · subst h
        have hne : cs ≠ [] := by simpa [List.isEmpty_iff] using he
        have hpos : 0 < cs.length := List.length_pos.mpr hne
        constructor
        · simp [List.length_take]
          omega
        · simp [List.length_take]
      · exact ih _ _ h

theorem splitChunksGo_dropLast_full (size : Nat) (hs : 0 < size) :
    ∀ (f : Nat) (cs : List Char), cs.length < f →
      ∀ w ∈ (splitChunksGo size f cs).dropLast, w.length = size := by
  intro f
  induction f with
  | zero => intro cs h; exact absurd h (Nat.not_lt_zero _)
  | succ f ih =>
    intro cs h w hw
    by_cases he : cs.isEmpty
    · rw [List.isEmpty_iff.mp he, splitChunksGo_nil] at hw
      simp at hw
    · rw [splitChunksGo_cons size f cs he] at hw
      have hne : cs ≠ [] := by simpa [List.isEmpty_iff] using he
      have hpos : 0 < cs.length := List.length_pos.mpr hne
      cases hrest : splitChunksGo size f (cs.drop size) with
      | nil =>
        rw [hrest] at hw
        simp at hw
      | cons a l =>
        rw [hrest, List.dropLast_cons_of_ne_nil (List.cons_ne_nil a l)] at hw
        rcases List.mem_cons.mp hw with h1 | h1
        · subst h1
          have hd : cs.drop size ≠ [] := by
            intro h0
            rw [h0, splitChunksGo_nil] at hrest
            exact List.noConfusion hrest
          have hlt : size < cs.length := by
            by_contra hle
            push_neg at hle
            exact hd (List.drop_eq_nil_of_le hle)
          simp [List.length_take]
          omega
        · exact ih (cs.drop size) (by simp [List.length_drop]; omega) w (hrest ▸ h1)

theorem skipWsS_replicate_space (n : Nat) : ∀ (pos : Nat),
    skipWsS pos (List.replicate n ' ') = (pos + n, []) := by
  induction n with
  | zero => intro pos; simp [skipWsS, List.replicate]
  | succ n ih =>
    intro pos
    rw [List.replicate_succ]
    rw [show skipWsS pos (' ' :: List.replicate n ' ')
        = skipWsS (pos + 1) (List.replicate n ' ') from by simp [skipWsS, jsonWs]]
    rw [ih (pos + 1)]
    simp only [Prod.mk.injEq]
    exact ⟨by omega, trivial⟩

/-! ### Closed-window strict parses for the C7 instances -/

theorem scanValueF_seven (f : Nat) (rest : List Char) :
    scanValueF (f + 1) 0 ('7' :: ' ' :: rest)
      = SRes.ok (Val.num (JNum.int 7)) 1 (' ' :: rest) := by
  simp [scanValueF, matchNumber, matchIntPart, matchFrac, matchExp, digitSpan,
    digitVal, digitsVal]

theorem strictDecode_replicate_space (n : Nat) :
    strictDecode (List.replicate (n + 1) ' ') = Except.error (n + 1) := by
  unfold strictDecode
  have h1 : skipWsS 0 (List.replicate (n + 1) ' ') = (n + 1, []) := by
    rw [skipWsS_replicate_space (n + 1) 0]
    simp
  rw [h1]
  have h2 : 4 * (List.replicate (n + 1) ' ').length + 8 = (4 * (n + 1) + 7) + 1 := by
    simp only [List.length_replicate]
  rw [h2]
  simp [scanValueF]

theorem strictDecode_seven (m : Nat) :
    strictDecode ('7' :: List.replicate (m + 8) ' ')
      = Except.ok (Val.num (JNum.int 7)) := by
  have hrep : List.replicate (m + 8) ' ' = ' ' :: List.replicate (m + 7) ' ' := by
    rw [show m + 8 = (m + 7) + 1 by omega, List.replicate_succ]
  unfold strictDecode
  rw [hrep]
  have h0 : skipWsS 0 ('7' :: ' ' :: List.replicate (m + 7) ' ')
      = (0, '7' :: ' ' :: List.replicate (m + 7) ' ') := by
    simp [skipWsS, jsonWs]
  rw [h0]
  have h2 : 4 * ('7' :: ' ' :: List.replicate (m + 7) ' ').length + 8
      = (4 * m + 43) + 1 := by
    simp only [List.length_cons, List.length_replicate]
    omega
  rw [h2]
  dsimp only
  rw [scanValueF_seven (4 * m + 43) (List.replicate (m + 7) ' ')]
  have h3 : skipWsS 1 (' ' :: List.replicate (m + 7) ' ') = (m + 9, []) := by
    rw [← List.replicate_succ, show (m + 7) + 1 = m + 8 by omega,
      skipWsS_replicate_space (m + 8) 1]
    simp
    omega
  simp [h3]

theorem chunkParse_replicate_space (n : Nat) :
    chunkParse (List.replicate (n + 1) ' ') = Val.obj [] := by
  unfold chunkParse
  rw [strictDecode_replicate_space]

theorem chunkParse_seven (m : Nat) :
    chunkParse ('7' :: List.replicate (m + 8) ' ') = Val.num (JNum.int 7) := by
  unfold chunkParse
  rw [strictDecode_seven]

theorem splitChunks_spaces :
    splitChunks 5000 (List.replicate 10001 ' ')
      = [List.replicate 5000 ' ', List.replicate 5000 ' ', List.replicate 1 ' '] := by
  rw [splitChunks, List.length_replicate]
  rw [show (10001 + 1 : Nat) = 10001 + 1 from rfl, splitChunksGo_cons _ _ _ (by simp)]
  rw [List.take_replicate, List.drop_replicate]
  norm_num
  rw [show (10001 : Nat) = 10000 + 1 from rfl, splitChunksGo_cons _ _ _ (by simp)]
  rw [List.take_replicate, List.drop_replicate]
  norm_num
  rw [show (10000 : Nat) = 9999 + 1 from rfl, splitChunksGo_cons _ _ _ (by simp)]
  simp [splitChunksGo_nil]

theorem splitChunks_seven :
    splitChunks 5000 ('7' :: List.replicate 10000 ' ')
      = ['7' :: List.replicate 4999 ' ', List.replicate 5000 ' ', List.replicate 1 ' '] := by
  rw [splitChunks, List.length_cons, List.length_replicate]
  rw [splitChunksGo_cons _ _ _ (by simp only [List.isEmpty_cons]; exact Bool.false_ne_true)]
  rw [show (5000 : Nat) = 4999 + 1 from rfl, List.take_succ_cons, List.drop_succ_cons]
  rw [List.take_replicate, List.drop_replicate]
  norm_num
  rw [show (10001 : Nat) = 10000 + 1 from rfl, splitChunksGo_cons _ _ _ (by simp)]
  rw [List.take_replicate, List.drop_replicate]
  norm_num
  rw [show (10000 : Nat) = 9999 + 1 from rfl, splitChunksGo_cons _ _ _ (by simp)]
  simp [splitChunksGo_nil]

theorem chunkParse_space_pos (n : Nat) (hn : 0 < n) :
    chunkParse (List.replicate n ' ') = Val.obj [] := by
  obtain ⟨m, rfl⟩ : ∃ m, n = m + 1 := ⟨n - 1, by omega⟩
  exact chunkParse_replicate_space m

theorem chunkParse_seven_ge (n : Nat) (hn : 8 ≤ n) :
    chunkParse ('7' :: List.replicate n ' ') = Val.num (JNum.int 7) := by
  obtain ⟨m, rfl⟩ : ∃ m, n = m + 8 := ⟨n - 8, by omega⟩
  exact chunkParse_seven m

/-- C7: on the chunked path the partition, the strict-only window parses and
the later-wins key-union merge are as claimed, PROVIDED every window's strict
parse yields an object (a failed window yields `\x7b\x7d`, i.e. `Val.obj []`, so
it is covered).  The hypothesis is exactly the spec's own assumption that
oversized inputs are concatenations of objects; it is load-bearing: a window
that strict-parses to a non-object makes `merged.update` raise `TypeError`
(see the counterexample), so load_json does not return a Result on every
long input as the claim asserts. -/
theorem C7_chunked_merge (text : List Char) (hlen : text.length > 10000)
    (hobj : ∀ w ∈ splitChunks 5000 text, ∃ fs, chunkParse w = Val.obj fs) :
    ((splitChunks 5000 text).flatten = text
      ∧ (∀ w ∈ splitChunks 5000 text, 1 ≤ w.length ∧ w.length ≤ 5000)
      ∧ (∀ w ∈ (splitChunks 5000 text).dropLast, w.length = 5000))
    ∧ ∃ merged,
        loadJson text = Except.ok ⟨text, dumps (Val.obj merged), []⟩
        ∧ allStrKeys merged
        ∧ ∀ s, alookup merged (JKey.str s)
            = specLastBinding
                (((splitChunks 5000 text).map chunkParse).flatMap objFields)
                (JKey.str s) := by
  have hs : (0 : Nat) < 5000 := by omega
  have hvs : ∀ v ∈ (splitChunks 5000 text).map chunkParse, ∃ fs, v = Val.obj fs := by
    intro v hv
    obtain ⟨w, hw, hvw⟩ := List.mem_map.mp hv
    obtain ⟨fs, hfs⟩ := hobj w hw
    exact ⟨fs, by rw [← hvw, hfs]⟩
  have hmerge := foldlM_dictUpdate_objs ((splitChunks 5000 text).map chunkParse) hvs []
  have hbs : allStrKeys (((splitChunks 5000 text).map chunkParse).flatMap objFields) := by
    intro kv hkv
    obtain ⟨v, hv, hkv2⟩ := List.mem_flatMap.mp hkv
    obtain ⟨w, hw, hvw⟩ := List.mem_map.mp hv
    obtain ⟨fs, hfs⟩ := hobj w hw
    have hveq : v = Val.obj fs := by rw [← hvw, hfs]
    subst hveq
    exact chunkParse_obj_keys w fs hfs kv (by simpa [objFields] using hkv2)
  refine ⟨⟨splitChunks_flatten 5000 hs text,
    fun w hw => splitChunksGo_window_len 5000 hs _ text w hw,
    fun w hw => splitChunksGo_dropLast_full 5000 hs _ text (Nat.lt_succ_self _) w hw⟩,
    ((splitChunks 5000 text).map chunkParse).flatMap objFields |>.foldl
      (fun a kv => upsert a kv.1 kv.2) [], ?_, ?_, ?_⟩
  · unfold loadJson loadJsonSt
    rw [if_pos hlen]
    dsimp only
    rw [hmerge]
  · exact allStrKeys_foldl _ hbs [] (fun kv hkv => absurd hkv (List.not_mem_nil _))
  · intro s
    rw [foldl_upsert_alookup _ hbs [] (fun kv hkv => absurd hkv (List.not_mem_nil _)) s]
    cases h : specLastBinding (((splitChunks 5000 text).map chunkParse).flatMap objFields)
      (JKey.str s) <;> simp [h, alookup]

theorem C7_chunked_merge_witness :
    (((splitChunks 5000 (List.replicate 10001 ' ')).flatten = List.replicate 10001 ' '
      ∧ (∀ w ∈ splitChunks 5000 (List.replicate 10001 ' '), 1 ≤ w.length ∧ w.length ≤ 5000)
      ∧ (∀ w ∈ (splitChunks 5000 (List.replicate 10001 ' ')).dropLast, w.length = 5000))
    ∧ ∃ merged,
        loadJson (List.replicate 10001 ' ')
          = Except.ok ⟨List.replicate 10001 ' ', dumps (Val.obj merged), []⟩
        ∧ allStrKeys merged
        ∧ ∀ s, alookup merged (JKey.str s)
            = specLastBinding
                (((splitChunks 5000 (List.replicate 10001 ' ')).map chunkParse).flatMap objFields)
                (JKey.str s)) := by
  apply C7_chunked_merge (List.replicate 10001 ' ')
    (by simp only [List.length_replicate]; omega)
  intro w hw
  rw [splitChunks_spaces] at hw
  simp only [List.mem_cons, List.not_mem_nil, or_false] at hw
  rcases hw with h | h | h <;> subst h
  · exact ⟨[], chunkParse_space_pos 5000 (by omega)⟩
  · exact ⟨[], chunkParse_space_pos 5000 (by omega)⟩
  · exact ⟨[], chunkParse_space_pos 1 (by omega)⟩

/-- C7 counterexample: the 10001-character input `7` followed by 10000
spaces.  Its first 5000-character window strict-parses successfully to the
integer `7` (not an object, and not a failed window), and
`merged.update(7)` then raises `TypeError`, which propagates out of
`load_json`.  The claim's "merges the parsed windows into one mapping ...
and returns a Result" is violated for this long input. -/
theorem C7_counterexample :
    loadJson ('7' :: List.replicate 10000 ' ') = Except.error PyErr.typeError := by
  have hlen : ('7' :: List.replicate 10000 ' ').length > 10000 := by
    simp only [List.length_cons, List.length_replicate]
    omega
  unfold loadJson loadJsonSt
  rw [if_pos hlen]
  dsimp only
  rw [splitChunks_seven]
  rw [List.map_cons, List.map_cons, List.map_cons, List.map_nil]
  rw [chunkParse_seven_ge 4999 (by omega)]
  rw [chunkParse_space_pos 5000 (by omega)]
  rw [chunkParse_space_pos 1 (by omega)]
  rfl

end JasonFixer
